import Mathlib

/-!
Consistent hash ring of `ketama.go`.

A shallow embedding of the hash ring of `src/ketama.go` (`node`, `tickArray`,
`hashRing`, `NewRing`, `AddNode`, `DelNode`, `Bake`, `Hash`) together with the
three library routines the ring calls: `crypto/sha1`, `sort.Search` and
`sort.Sort`; and of the function `Murmur3` with its constants and `Seed`.

Conventions of the embedding.

* A Go slice of entries is a `List`; a run-time panic (index or slice bound
  out of range) is the value `none` of an `Option`.
* A Go string is a Lean `String`, converted to bytes by its UTF-8 encoding.
* `uint` values are natural numbers; every position is built from four bytes
  and stays below `2 ^ 32`, so no operation on it wraps. `uint32` values are
  natural numbers below `2 ^ 32`, each operation that can leave that range
  being followed by `% 2 ^ 32`.
* `int` values that the caller supplies (`defaultSpots`, the multiplier) are
  integers, and their product is wrapped to 64 bits as Go does on 64-bit
  targets. The field `length` only ever receives `len(h.ticks)` and is a
  natural number.
* `log` output is not part of the state.
-/

namespace Ketama

/-! ## `crypto/sha1` (FIPS 180-4), on lists of bytes -/

/-- Rotate a 32-bit word left by `n` bits. -/
def rotl32 (x n : Nat) : Nat := ((x <<< n) ||| (x >>> (32 - n))) % 2 ^ 32

/-- The four bytes of a 32-bit word, most significant first. -/
def be32 (w : Nat) : List Nat :=
  [w >>> 24 % 256, w >>> 16 % 256, w >>> 8 % 256, w % 256]

/-- Message padding: the byte `0x80`, zero bytes up to 56 modulo 64, and the
bit length as a 64-bit big-endian number. -/
def sha1Pad (msg : List Nat) : List Nat :=
  let bits := msg.length * 8
  msg ++ [0x80] ++ List.replicate ((119 - msg.length % 64) % 64) 0 ++
    be32 (bits >>> 32 % 2 ^ 32) ++ be32 (bits % 2 ^ 32)

/-- The first `n` big-endian 32-bit words of a byte list. -/
def sha1Words : Nat → List Nat → List Nat
  | 0, _ => []
  | n + 1, b0 :: b1 :: b2 :: b3 :: rest =>
      (b0 <<< 24 ||| b1 <<< 16 ||| b2 <<< 8 ||| b3) :: sha1Words n rest
  | _ + 1, _ => []

/-- Round function of round `t`. -/
def sha1F (t b c d : Nat) : Nat :=
  if t < 20 then (b &&& c) ||| ((b ^^^ 0xFFFFFFFF) &&& d)
  else if t < 40 then b ^^^ c ^^^ d
  else if t < 60 then (b &&& c) ||| (b &&& d) ||| (c &&& d)
  else b ^^^ c ^^^ d

/-- Round constant of round `t`. -/
def sha1K (t : Nat) : Nat :=
  if t < 20 then 0x5A827999 else if t < 40 then 0x6ED9EBA1
  else if t < 60 then 0x8F1BBCDC else 0xCA62C1D6

/-- The five chaining words of SHA-1. -/
structure Sha1State where
  a : Nat
  b : Nat
  c : Nat
  d : Nat
  e : Nat
deriving DecidableEq, Repr

/-- One round: the second component is the window `w[t], ..., w[t+15]` of the
message schedule. -/
def sha1Round (st : Sha1State × List Nat) (t : Nat) : Sha1State × List Nat :=
  let w := st.2
  let s := st.1
  let wt := w.getD 0 0
  let nw := rotl32 (w.getD 13 0 ^^^ w.getD 8 0 ^^^ w.getD 2 0 ^^^ wt) 1
  let tmp := (rotl32 s.a 5 + sha1F t s.b s.c s.d + s.e + sha1K t + wt) % 2 ^ 32
  (⟨tmp, s.a, rotl32 s.b 30, s.c, s.d⟩, w.drop 1 ++ [nw])

/-- Compression of one 64-byte block. -/
def sha1Block (h : Sha1State) (block : List Nat) : Sha1State :=
  let r := ((List.range 80).foldl sha1Round (h, sha1Words 16 block)).1
  ⟨(h.a + r.a) % 2 ^ 32, (h.b + r.b) % 2 ^ 32, (h.c + r.c) % 2 ^ 32,
    (h.d + r.d) % 2 ^ 32, (h.e + r.e) % 2 ^ 32⟩

/-- Compression of `n` consecutive blocks. -/
def sha1Blocks : Nat → Sha1State → List Nat → Sha1State
  | 0, h, _ => h
  | n + 1, h, bytes => sha1Blocks n (sha1Block h (bytes.take 64)) (bytes.drop 64)

/-- The 20-byte digest that `hash.Write(msg); hash.Sum(nil)` returns on a
fresh (or reset) `sha1.New()`. -/
def sha1Sum (msg : List Nat) : List Nat :=
  let p := sha1Pad msg
  let h := sha1Blocks (p.length / 64)
    ⟨0x67452301, 0xEFCDAB89, 0x98BADCFE, 0x10325476, 0xC3D2E1F0⟩ p
  be32 h.a ++ be32 h.b ++ be32 h.c ++ be32 h.d ++ be32 h.e

/-- The conversion `[]byte(s)`. -/
def bytesOf (s : String) : List Nat :=
  s.data.flatMap (fun c => (String.utf8EncodeChar c).map UInt8.toNat)

/-- The decimal text `strconv.Itoa(i)` of a replica index `i ≥ 1`. -/
def Itoa (i : Nat) : String := Nat.repr i

/-! ## `sort.Search` and `sort.Sort` -/

/-- The loop of `sort.Search`: `for i < j { h := (i+j)/2; if !f(h) { i = h+1 }
else { j = h } }; return i`. The predicate may panic (`none`). The first
argument bounds the number of iterations; `j - i` of them always suffice
(`searchLoop_fuel`). -/
def searchLoop (f : Nat → Option Bool) : Nat → Nat → Nat → Option Nat
  | 0, i, _ => some i
  | fuel + 1, i, j =>
    if i < j then
      match f ((i + j) / 2) with
      | none => none
      | some false => searchLoop f fuel ((i + j) / 2 + 1) j
      | some true => searchLoop f fuel i ((i + j) / 2)
    else some i

/-- The call `sort.Search(n, f)`. -/
def Search (n : Nat) (f : Nat → Option Bool) : Option Nat := searchLoop f n 0 n

/-! ## The ring -/

set_option linter.dupNamespace false in
/-- The Go type `node`: a virtual node, with its owner's name and position. -/
structure node where
  node : String
  hash : Nat
deriving DecidableEq, Repr

/-- The Go type `tickArray`. -/
abbrev tickArray := List node

/-- The order that `tickArray.Sort` establishes: `Less(j, i)` is false. -/
def tickLE (a b : node) : Prop := a.hash ≤ b.hash

instance : DecidableRel tickLE := fun a b => inferInstanceAs (Decidable (a.hash ≤ b.hash))

instance : IsTotal node tickLE := ⟨fun a b => Nat.le_total a.hash b.hash⟩

instance : IsTrans node tickLE := ⟨fun _ _ _ h1 h2 => Nat.le_trans h1 h2⟩

/-- The method `tickArray.Sort`, `sort.Sort(p)` with `Less(i, j)` comparing
`hash` by `<`. The library call is modelled by an insertion sort that never
moves an entry past one of equal position: this is what `sort.Sort` runs on
up to 12 entries; on longer inputs the library returns a sorted permutation
in which entries of equal position can come in another order, and returns an
already sorted input as it is. -/
def tickArray.Sort (p : tickArray) : tickArray := List.insertionSort tickLE p

/-- The Go type `hashRing`. -/
structure hashRing where
  defaultSpots : Int
  ticks : tickArray
  length : Nat
deriving DecidableEq, Repr

/-- The constructor `NewRing(n)`. -/
def NewRing (n : Int) : hashRing := ⟨n, [], 0⟩

/-- Go's 64-bit `int` arithmetic: the representative in `[-2^63, 2^63)`. -/
def wrapInt (x : Int) : Int := (x + 2 ^ 63) % 2 ^ 64 - 2 ^ 63

/-- The value `tSpots := h.defaultSpots * s` of `AddNode` and `DelNode`. -/
def tSpots (h : hashRing) (s : Int) : Int := wrapInt (h.defaultSpots * s)

/-- The body of the loop of `AddNode` for replica index `i`. -/
def addStep (name : String) (h : hashRing) (i : Nat) : hashRing :=
  let hashBytes := sha1Sum (bytesOf (name ++ ":" ++ Itoa i))
  let n : node :=
    ⟨name, hashBytes.getD 19 0 ||| hashBytes.getD 18 0 <<< 8 |||
      hashBytes.getD 17 0 <<< 16 ||| hashBytes.getD 16 0 <<< 24⟩
  { h with ticks := h.ticks ++ [n] }

/-- The method `AddNode(name, s)`: the loop `for i := 1; i <= tSpots; i++`,
run for the indices `1, ..., tSpots` (none when `tSpots ≤ 0`). Memory is taken
to be unbounded, and the single value `tSpots = 2^63 - 1`, at which `i++`
would wrap, is not told apart. -/
def AddNode (h : hashRing) (name : String) (s : Int) : hashRing :=
  (List.range' 1 (tSpots h s).toNat).foldl (addStep name) h

/-- The body of the loop of `DelNode` for replica index `i`. The slice
expression `h.ticks[j+1:]` panics when `j + 1` exceeds `len(h.ticks)`. -/
def delStep (name : String) (h : hashRing) (i : Nat) : Option hashRing :=
  let hashBytes := sha1Sum (bytesOf (name ++ ":" ++ Itoa i))
  let v := hashBytes.getD 19 0 ||| hashBytes.getD 18 0 <<< 8 |||
    hashBytes.getD 17 0 <<< 16 ||| hashBytes.getD 16 0 <<< 24
  let search := fun x => (h.ticks[x]?).map (fun t => decide (t.hash ≥ v))
  (Search h.length search).bind fun j =>
    if j + 1 ≤ h.ticks.length then
      let ticks := h.ticks.take j ++ h.ticks.drop (j + 1)
      some { h with ticks := ticks, length := ticks.length }
    else none

/-- The method `DelNode(name, s)`: the same loop over `1, ..., tSpots`; the
first step that panics ends the call. -/
def DelNode (h : hashRing) (name : String) (s : Int) : Option hashRing :=
  (List.range' 1 (tSpots h s).toNat).foldl
    (fun acc i => acc.bind fun r => delStep name r i) (some h)

/-- The method `Bake()`. -/
def Bake (h : hashRing) : hashRing :=
  let ticks := h.ticks.Sort
  { h with ticks := ticks, length := ticks.length }

/-- The method `Hash(s)`; `none` is an index out of range. -/
def Hash (h : hashRing) (s : String) : Option String :=
  let hashBytes := sha1Sum (bytesOf s)
  let v := hashBytes.getD 19 0 ||| hashBytes.getD 18 0 <<< 8 |||
    hashBytes.getD 17 0 <<< 16 ||| hashBytes.getD 16 0 <<< 24
  (Search h.length (fun i => (h.ticks[i]?).map (fun t => decide (t.hash ≥ v)))).bind fun i =>
    let i := if i = h.length then 0 else i
    (h.ticks[i]?).map (fun t => t.node)

/-! ## Notions used to state the properties -/

/-- The position of a string on the ring: the last four bytes of its SHA-1
digest, byte 19 least significant. -/
def position (s : String) : Nat :=
  let hashBytes := sha1Sum (bytesOf s)
  hashBytes.getD 19 0 ||| hashBytes.getD 18 0 <<< 8 |||
    hashBytes.getD 17 0 <<< 16 ||| hashBytes.getD 16 0 <<< 24

/-- The entries that `AddNode(name, _)` creates for the replica indices
`1, ..., n`, in the order of creation. -/
def replicas (name : String) (n : Nat) : tickArray :=
  (List.range' 1 n).map (fun i => ⟨name, position (name ++ ":" ++ Itoa i)⟩)

/-- The entry that a ring with entry list `l` assigns to position `v`: the
first entry at or after `v`, and the first entry of all when there is none. -/
def successor (l : tickArray) (v : Nat) : Option node :=
  l[if l.findIdx (fun t => decide (t.hash ≥ v)) = l.length then 0
    else l.findIdx (fun t => decide (t.hash ≥ v))]?

/-- A sequence of `AddNode` calls, each with its name and multiplier, in the
order of the calls. -/
def AddNodes (h : hashRing) (calls : List (String × Int)) : hashRing :=
  calls.foldl (fun r c => AddNode r c.1 c.2) h

/-- The position that the specification derives from a 20-byte digest `d`:
`d[16]*2^24 + d[17]*2^16 + d[18]*2^8 + d[19]`, offset 19 least significant. -/
def digestPosition (d : List Nat) : Nat :=
  d.getD 16 0 * 2 ^ 24 + d.getD 17 0 * 2 ^ 16 + d.getD 18 0 * 2 ^ 8 + d.getD 19 0

/-! ## The murmur hash -/

namespace Murmur

/-- The constant `c1`. -/
def c1 : Nat := 0xcc9e2d51

/-- The constant `c2`. -/
def c2 : Nat := 0x1b873593

/-- The constant `c3`. -/
def c3 : Nat := 0x85ebca6b

/-- The constant `c4`. -/
def c4 : Nat := 0xc2b2ae35

/-- The constant `r1`. -/
def r1 : Nat := 15

/-- The constant `r2`. -/
def r2 : Nat := 13

/-- The constant `m`. -/
def m : Nat := 5

/-- The constant `n`. -/
def n : Nat := 0xe6546b64

/-- The initial value of the package variable `Seed`. -/
def Seed : Nat := 1

end Murmur

/-- The body of the `for` loop of `Murmur3` on the four bytes of one block;
`uint32` arithmetic is arithmetic modulo `2^32`. -/
def murmurBody (hash b0 b1 b2 b3 : Nat) : Nat :=
  let k := b0 ||| b1 <<< 8 ||| b2 <<< 16 ||| b3 <<< 24
  let k := k * Murmur.c1 % 2 ^ 32
  let k := (k <<< Murmur.r1) % 2 ^ 32 ||| k >>> (32 - Murmur.r1)
  let k := k * Murmur.c2 % 2 ^ 32
  let hash := hash ^^^ k
  let hash := (hash <<< Murmur.r2) % 2 ^ 32 ||| hash >>> (32 - Murmur.r2)
  (hash * Murmur.m + Murmur.n) % 2 ^ 32

/-- The `for` loop of `Murmur3`, from index `iByte` with the current `hash`;
the result is the index and the hash at the exit of the loop. The value
`none` is an index out of range, or a first argument too small for the loop
to finish (`len(key)` is enough). -/
def murmurLoop (key : List Nat) : Nat → Nat → Nat → Option (Nat × Nat)
  | 0, iByte, hash => if iByte + 4 ≤ key.length then none else some (iByte, hash)
  | fuel + 1, iByte, hash =>
    if iByte + 4 ≤ key.length then
      match key[iByte]?, key[iByte + 1]?, key[iByte + 2]?, key[iByte + 3]? with
      | some b0, some b1, some b2, some b3 =>
        murmurLoop key fuel (iByte + 4) (murmurBody hash b0 b1 b2 b3)
      | _, _, _, _ => none
    else some (iByte, hash)

/-- The body of `case 1` of the `switch` of `Murmur3`, entered with the
current `remainingBytes`. -/
def murmurCase1 (key : List Nat) (iByte hash remainingBytes : Nat) : Option Nat :=
  (key[iByte]?).map fun b =>
    let remainingBytes := (remainingBytes + b) % 2 ^ 32
    let remainingBytes := remainingBytes * Murmur.c1 % 2 ^ 32
    let remainingBytes :=
      (remainingBytes <<< Murmur.r1) % 2 ^ 32 ||| remainingBytes >>> (32 - Murmur.r1)
    let remainingBytes := remainingBytes * Murmur.c2 % 2 ^ 32
    hash ^^^ remainingBytes

/-- The body of `case 2`, which falls through to `case 1`. -/
def murmurCase2 (key : List Nat) (iByte hash remainingBytes : Nat) : Option Nat :=
  (key[iByte + 1]?).bind fun b =>
    murmurCase1 key iByte hash ((remainingBytes + b <<< 8) % 2 ^ 32)

/-- The body of `case 3`, which falls through to `case 2`. -/
def murmurCase3 (key : List Nat) (iByte hash remainingBytes : Nat) : Option Nat :=
  (key[iByte + 2]?).bind fun b =>
    murmurCase2 key iByte hash ((remainingBytes + b <<< 16) % 2 ^ 32)

/-- The function `Murmur3(key)`, run while the package variable `Seed` holds
`seed`. The bytes of `key` are numbers below 256. -/
def Murmur3 (seed : Nat) (key : List Nat) : Option Nat :=
  (murmurLoop key key.length 0 seed).bind fun st =>
    let iByte := st.1
    let hash := st.2
    let afterSwitch : Option Nat :=
      if key.length - iByte = 3 then murmurCase3 key iByte hash 0
      else if key.length - iByte = 2 then murmurCase2 key iByte hash 0
      else if key.length - iByte = 1 then murmurCase1 key iByte hash 0
      else some hash
    afterSwitch.map fun hash =>
      let hash := hash ^^^ (key.length % 2 ^ 32)
      let hash := hash ^^^ hash >>> 16
      let hash := hash * Murmur.c3 % 2 ^ 32
      let hash := hash ^^^ hash >>> 13
      let hash := hash * Murmur.c4 % 2 ^ 32
      let hash := hash ^^^ hash >>> 16
      hash

/-- The mixing of one key word `k` in MurmurHash3 x86-32: multiply by
`0xcc9e2d51`, rotate left by 15, multiply by `0x1b873593`. -/
def murmurMixK (k : Nat) : Nat :=
  rotl32 (k * 0xcc9e2d51 % 2 ^ 32) 15 * 0x1b873593 % 2 ^ 32

/-- The body of MurmurHash3 x86-32 over `nblocks` full 4-byte blocks, read
little-endian: `h ^= mix(k)`, rotate left by 13, `h = h*5 + 0xe6546b64`. The
result is the hash and the bytes that follow the blocks. -/
def murmurBlocks : Nat → List Nat → Nat → Nat × List Nat
  | 0, tail, h => (h, tail)
  | nblocks + 1, data, h =>
    match data with
    | b0 :: b1 :: b2 :: b3 :: rest =>
      murmurBlocks nblocks rest
        ((rotl32 (h ^^^ murmurMixK (b0 + b1 * 2 ^ 8 + b2 * 2 ^ 16 + b3 * 2 ^ 24)) 13 * 5 +
          0xe6546b64) % 2 ^ 32)
    | tail => (h, tail)

/-- The tail of MurmurHash3 x86-32: the tail bytes are combined by XOR, the
lowest offset least significant, mixed and XORed into the hash, with no
rotate and multiply-add step. -/
def murmurTail (tail : List Nat) (h : Nat) : Nat :=
  match tail with
  | [b0] => h ^^^ murmurMixK b0
  | [b0, b1] => h ^^^ murmurMixK ((0 ^^^ b1 <<< 8) ^^^ b0)
  | [b0, b1, b2] => h ^^^ murmurMixK (((0 ^^^ b2 <<< 16) ^^^ b1 <<< 8) ^^^ b0)
  | _ => h

/-- The finalization mix `fmix32` of MurmurHash3. -/
def fmix32 (h : Nat) : Nat :=
  let h := h ^^^ h >>> 16
  let h := h * 0x85ebca6b % 2 ^ 32
  let h := h ^^^ h >>> 13
  let h := h * 0xc2b2ae35 % 2 ^ 32
  h ^^^ h >>> 16

/-- The canonical MurmurHash3 x86-32 of `key` with seed `seed`: the
`len / 4` blocks, the tail, XOR with the length, `fmix32`; all arithmetic
modulo `2^32`. -/
def murmur3Reference (seed : Nat) (key : List Nat) : Nat :=
  fmix32 (murmurTail (murmurBlocks (key.length / 4) key seed).2
    (murmurBlocks (key.length / 4) key seed).1 ^^^ (key.length % 2 ^ 32))

/-! ## `sort.Search` -/

/-- Any two iteration bounds of at least `j - i` give the same result: the
bound of `searchLoop` is never the reason for its answer. -/
theorem searchLoop_fuel (f : Nat → Option Bool) :
    ∀ fuel₁ fuel₂ i j, j - i ≤ fuel₁ → j - i ≤ fuel₂ →
      searchLoop f fuel₁ i j = searchLoop f fuel₂ i j := by
  intro fuel₁
  induction fuel₁ with
  | zero =>
    intro fuel₂ i j h1 _
    have hij : ¬ i < j := by omega
    cases fuel₂ with
    | zero => rfl
    | succ m => simp [searchLoop, hij]
  | succ k ih =>
    intro fuel₂ i j h1 h2
    cases fuel₂ with
    | zero =>
      have hij : ¬ i < j := by omega
      simp [searchLoop, hij]
    | succ m =>
      by_cases hij : i < j
      · simp only [searchLoop, hij, if_true]
        have e1 := ih m ((i + j) / 2 + 1) j (by omega) (by omega)
        have e2 := ih m i ((i + j) / 2) (by omega) (by omega)
        rw [e1, e2]
      · simp [searchLoop, hij]

/-- Loop invariant of `sort.Search` on a predicate that does not panic below
`n` and is monotone there. -/
theorem searchLoop_spec (f : Nat → Option Bool) (p : Nat → Bool) (n : Nat)
    (hf : ∀ x, x < n → f x = some (p x))
    (hmono : ∀ x y, x ≤ y → y < n → p x = true → p y = true) :
    ∀ fuel i j, i ≤ j → j ≤ n → j - i ≤ fuel →
      (∀ x, x < i → p x = false) → (∀ x, j ≤ x → x < n → p x = true) →
      ∃ k, searchLoop f fuel i j = some k ∧ k ≤ n ∧
        (∀ x, x < k → p x = false) ∧ (∀ x, k ≤ x → x < n → p x = true) := by
  intro fuel
  induction fuel with
  | zero =>
    intro i j hij hjn hfuel hlo hhi
    have : i = j := by omega
    subst this
    exact ⟨i, rfl, hjn, hlo, hhi⟩
  | succ m ih =>
    intro i j hij hjn hfuel hlo hhi
    by_cases hlt : i < j
    · have hm : (i + j) / 2 < n := by omega
      simp only [searchLoop, hlt, if_true, hf _ hm]
      cases hp : p ((i + j) / 2) with
      | false =>
        refine ih ((i + j) / 2 + 1) j (by omega) hjn (by omega) ?_ hhi
        intro x hx
        cases hpx : p x with
        | false => rfl
        | true =>
          have := hmono x ((i + j) / 2) (by omega) hm hpx
          rw [hp] at this
          exact absurd this (by simp)
      | true =>
        refine ih i ((i + j) / 2) (by omega) (by omega) (by omega) hlo ?_
        intro x hx hxn
        exact hmono ((i + j) / 2) x hx hxn hp
    · have : i = j := by omega
      subst this
      simp only [searchLoop, hlt, if_false]
      exact ⟨i, rfl, hjn, hlo, hhi⟩

/-- On a list sorted by position, the search that `Hash` and `DelNode` run
over the whole list returns the index of the first entry at or after `v`
(the length of the list when there is none). -/
theorem Search_sorted (l : tickArray) (v : Nat) (hs : l.Sorted tickLE) :
    Search l.length (fun x => (l[x]?).map (fun t => decide (t.hash ≥ v))) =
      some (l.findIdx (fun t => decide (t.hash ≥ v))) := by
  obtain ⟨k, hk, hkn, hlo, hhi⟩ := searchLoop_spec
    (fun x => (l[x]?).map (fun t => decide (t.hash ≥ v)))
    (fun x => ((l[x]?).map (fun t => decide (t.hash ≥ v))).getD false) l.length
    (by
      intro x hx
      simp [List.getElem?_eq_getElem hx])
    (by
      intro x y hxy hy
      have hx : x < l.length := by omega
      simp only [List.getElem?_eq_getElem hx, List.getElem?_eq_getElem hy, Option.map_some',
        Option.getD_some, decide_eq_true_eq]
      intro h
      have := hs.rel_get_of_le (a := ⟨x, hx⟩) (b := ⟨y, hy⟩) (by simpa using hxy)
      have h2 : l[x].hash ≤ l[y].hash := this
      omega)
    l.length 0 l.length (Nat.zero_le _) (Nat.le_refl _) (by omega)
    (by intro x hx; omega) (by intro x hx hx2; omega)
  unfold Search
  rw [hk]
  congr 1
  rcases Nat.lt_or_ge k l.length with hlt | hge
  · symm
    rw [List.findIdx_eq hlt]
    constructor
    · have := hhi k (Nat.le_refl _) hlt
      simpa [List.getElem?_eq_getElem hlt] using this
    · intro j hj
      have hjl : j < l.length := by omega
      have := hlo j hj
      simpa [List.getElem?_eq_getElem hjl] using this
  · have hkl : k = l.length := by omega
    subst hkl
    symm
    rw [List.findIdx_eq_length]
    intro x hx
    obtain ⟨i, hi, rfl⟩ := List.getElem_of_mem hx
    have := hlo i hi
    simpa [List.getElem?_eq_getElem hi] using this

/-! ## Lookup on a sorted ring -/

theorem Hash_eq_position (h : hashRing) (s : String) :
    Hash h s =
      (Search h.length
        (fun i => (h.ticks[i]?).map (fun t => decide (t.hash ≥ position s)))).bind
        (fun i => (h.ticks[if i = h.length then 0 else i]?).map (fun t => t.node)) := rfl

/-- On a ring whose entries are sorted and counted by `length`, `Hash`
returns the owner of the successor of the key's position. -/
theorem Hash_sorted (h : hashRing) (s : String) (hs : h.ticks.Sorted tickLE)
    (hlen : h.length = h.ticks.length) :
    Hash h s = (successor h.ticks (position s)).map (fun t => t.node) := by
  rw [Hash_eq_position, hlen, Search_sorted _ _ hs]
  rfl

theorem Bake_sorted (h : hashRing) : (Bake h).ticks.Sorted tickLE :=
  List.sorted_insertionSort tickLE h.ticks

theorem Bake_perm (h : hashRing) : (Bake h).ticks.Perm h.ticks :=
  List.perm_insertionSort tickLE h.ticks

theorem Bake_length (h : hashRing) : (Bake h).length = (Bake h).ticks.length := rfl

theorem Bake_ne_nil (h : hashRing) (hne : h.ticks ≠ []) : (Bake h).ticks ≠ [] := by
  intro hnil
  have := (Bake_perm h).length_eq
  rw [hnil] at this
  exact hne (List.length_eq_zero.mp this.symm)

theorem Hash_Bake (h : hashRing) (s : String) :
    Hash (Bake h) s = (successor (Bake h).ticks (position s)).map (fun t => t.node) :=
  Hash_sorted (Bake h) s (Bake_sorted h) (Bake_length h)

/-- A non-empty entry list has a successor for every position, at an index
inside the list. -/
theorem successor_index (l : tickArray) (v : Nat) (hne : l ≠ []) :
    ∃ i, ∃ hi : i < l.length, successor l v = some l[i] ∧
      ((i = l.findIdx (fun t => decide (t.hash ≥ v))) ∨
        (i = 0 ∧ l.findIdx (fun t => decide (t.hash ≥ v)) = l.length)) := by
  have hpos : 0 < l.length := List.length_pos.mpr hne
  by_cases hc : l.findIdx (fun t => decide (t.hash ≥ v)) = l.length
  · refine ⟨0, hpos, ?_, Or.inr ⟨rfl, hc⟩⟩
    simp [successor, hc, List.getElem?_eq_getElem hpos]
  · have hle : l.findIdx (fun t => decide (t.hash ≥ v)) ≤ l.length :=
      List.findIdx_le_length _
    have hlt : l.findIdx (fun t => decide (t.hash ≥ v)) < l.length := by omega
    refine ⟨_, hlt, ?_, Or.inl rfl⟩
    simp [successor, hc, List.getElem?_eq_getElem hlt]

/-- Claim C1. On a ring that holds at least one entry and has been finalized
with `Bake`, the `length` field is the number of entries and is positive, and
for every key `Hash` returns (no index is out of range) the owner of an entry
of the ring. -/
theorem Hash_Bake_returns_owner (h : hashRing) (key : String) (hne : h.ticks ≠ []) :
    (Bake h).length = (Bake h).ticks.length ∧ 0 < (Bake h).length ∧
      ∃ name, Hash (Bake h) key = some name ∧ ∃ t ∈ (Bake h).ticks, t.node = name := by
  have hne2 := Bake_ne_nil h hne
  refine ⟨rfl, List.length_pos.mpr hne2, ?_⟩
  obtain ⟨i, hi, hsucc, _⟩ := successor_index (Bake h).ticks (position key) hne2
  refine ⟨((Bake h).ticks[i]).node, ?_, (Bake h).ticks[i], List.getElem_mem _, rfl⟩
  rw [Hash_Bake, hsucc]
  rfl

/-- Witness of `Hash_Bake_returns_owner`: the ring of one node "A" with one replica. -/
theorem Hash_Bake_returns_owner_witness :
    (Bake (AddNode (NewRing 1) "A" 1)).length = (Bake (AddNode (NewRing 1) "A" 1)).ticks.length ∧
      0 < (Bake (AddNode (NewRing 1) "A" 1)).length ∧
      ∃ name, Hash (Bake (AddNode (NewRing 1) "A" 1)) "foo" = some name ∧
        ∃ t ∈ (Bake (AddNode (NewRing 1) "A" 1)).ticks, t.node = name :=
  Hash_Bake_returns_owner (AddNode (NewRing 1) "A" 1) "foo" (by decide)

/-- Claim C2. On a non-empty ring finalized with `Bake`, for a key whose
position `p` is at most some stored position, `Hash` returns the owner of the
entry at the smallest index whose position is at least `p`: the entry at that
index has position `≥ p` and every entry before it has position `< p`. -/
theorem Hash_Bake_first_at_or_after (h : hashRing) (key : String)
    (hex : ∃ t ∈ (Bake h).ticks, position key ≤ t.hash) :
    ∃ i, ∃ hi : i < (Bake h).ticks.length,
      position key ≤ ((Bake h).ticks[i]).hash ∧
      (∀ k, ∀ hk : k < (Bake h).ticks.length, k < i →
        ((Bake h).ticks[k]).hash < position key) ∧
      Hash (Bake h) key = some ((Bake h).ticks[i]).node := by
  have hlt : (Bake h).ticks.findIdx (fun t => decide (t.hash ≥ position key)) <
      (Bake h).ticks.length := by
    apply List.findIdx_lt_length_of_exists
    obtain ⟨t, ht, hp⟩ := hex
    exact ⟨t, ht, by simpa using hp⟩
  refine ⟨_, hlt, ?_, ?_, ?_⟩
  · have := List.findIdx_getElem (p := fun t : node => decide (t.hash ≥ position key)) (w := hlt)
    simpa using this
  · intro k hk hki
    have := List.not_of_lt_findIdx hki
    simpa using this
  · rw [Hash_Bake]
    simp [successor, Nat.ne_of_lt hlt, List.getElem?_eq_getElem hlt]

/-- Witness of `Hash_Bake_first_at_or_after`: the key "foo" (position
1977256499) on the ring of "A" and "B" with two replicas each, whose largest
position is 3789919800. -/
theorem Hash_Bake_first_at_or_after_witness :
    ∃ i, ∃ hi : i < (Bake (AddNode (AddNode (NewRing 2) "A" 1) "B" 1)).ticks.length,
      position "foo" ≤ ((Bake (AddNode (AddNode (NewRing 2) "A" 1) "B" 1)).ticks[i]).hash ∧
      (∀ k, ∀ hk : k < (Bake (AddNode (AddNode (NewRing 2) "A" 1) "B" 1)).ticks.length, k < i →
        ((Bake (AddNode (AddNode (NewRing 2) "A" 1) "B" 1)).ticks[k]).hash < position "foo") ∧
      Hash (Bake (AddNode (AddNode (NewRing 2) "A" 1) "B" 1)) "foo" =
        some ((Bake (AddNode (AddNode (NewRing 2) "A" 1) "B" 1)).ticks[i]).node :=
  Hash_Bake_first_at_or_after (AddNode (AddNode (NewRing 2) "A" 1) "B" 1) "foo"
    ⟨⟨"A", 3789919800⟩, by set_option maxRecDepth 100000 in decide,
      by set_option maxRecDepth 100000 in decide⟩

/-- Claim C3. On a non-empty ring finalized with `Bake`, a key whose position
is strictly greater than every stored position is given the owner of the
entry at index 0, and that entry holds the minimum position of the ring. -/
theorem Hash_Bake_wraps_to_first (h : hashRing) (key : String) (hne : h.ticks ≠ [])
    (hgt : ∀ t ∈ (Bake h).ticks, t.hash < position key) :
    ∃ first, (Bake h).ticks[0]? = some first ∧
      (∀ t ∈ (Bake h).ticks, first.hash ≤ t.hash) ∧
      Hash (Bake h) key = some first.node := by
  have hne2 := Bake_ne_nil h hne
  have hpos : 0 < (Bake h).ticks.length := List.length_pos.mpr hne2
  refine ⟨(Bake h).ticks[0], List.getElem?_eq_getElem hpos, ?_, ?_⟩
  · intro t ht
    obtain ⟨i, hi, rfl⟩ := List.getElem_of_mem ht
    exact (Bake_sorted h).rel_get_of_le (a := ⟨0, hpos⟩) (b := ⟨i, hi⟩) (Nat.zero_le _)
  · have hidx : (Bake h).ticks.findIdx (fun t => decide (t.hash ≥ position key)) =
        (Bake h).ticks.length := by
      rw [List.findIdx_eq_length]
      intro t ht
      have := hgt t ht
      simp
      omega
    rw [Hash_Bake]
    simp [successor, hidx, List.getElem?_eq_getElem hpos]

/-- Witness of `Hash_Bake_wraps_to_first`: the key "B:1" (position 3769265964)
on the ring of the single entry of "A" (position 727404730). -/
theorem Hash_Bake_wraps_to_first_witness :
    ∃ first, (Bake (AddNode (NewRing 1) "A" 1)).ticks[0]? = some first ∧
      (∀ t ∈ (Bake (AddNode (NewRing 1) "A" 1)).ticks, first.hash ≤ t.hash) ∧
      Hash (Bake (AddNode (NewRing 1) "A" 1)) "B:1" = some first.node :=
  Hash_Bake_wraps_to_first (AddNode (NewRing 1) "A" 1) "B:1" (by decide)
    (by set_option maxRecDepth 100000 in decide)

/-! ## `AddNode` -/

theorem addStep_eq (name : String) (h : hashRing) (i : Nat) :
    addStep name h i =
      { h with ticks := h.ticks ++ [⟨name, position (name ++ ":" ++ Itoa i)⟩] } := rfl

theorem foldl_addStep (name : String) (is : List Nat) :
    ∀ h : hashRing, (is.foldl (addStep name) h) =
      { h with ticks := h.ticks ++
          is.map (fun i => (⟨name, position (name ++ ":" ++ Itoa i)⟩ : node)) } := by
  induction is with
  | nil => intro h; simp
  | cons i is ih =>
    intro h
    rw [List.foldl_cons, ih, addStep_eq]
    simp

theorem AddNode_eq (h : hashRing) (name : String) (s : Int) :
    AddNode h name s =
      { h with ticks := h.ticks ++ replicas name (tSpots h s).toNat } :=
  foldl_addStep name _ h

theorem replicas_length (name : String) (n : Nat) : (replicas name n).length = n := by
  simp [replicas]

theorem replicas_getElem? (name : String) (n i : Nat) (hi : i < n) :
    (replicas name n)[i]? = some ⟨name, position (name ++ ":" ++ Itoa (i + 1))⟩ := by
  simp [replicas, List.getElem?_map, List.getElem?_range' _ _ hi, Nat.add_comm]

theorem replicas_node (name : String) (n : Nat) : ∀ t ∈ replicas name n, t.node = name := by
  intro t ht
  simp only [replicas, List.mem_map] at ht
  obtain ⟨i, _, rfl⟩ := ht
  rfl

/-- The product that the code computes is the mathematical product whenever
that fits Go's `int`. -/
theorem tSpots_eq_mul (h : hashRing) (s : Int)
    (hlo : -(2 : Int) ^ 63 ≤ h.defaultSpots * s) (hhi : h.defaultSpots * s < (2 : Int) ^ 63) :
    tSpots h s = h.defaultSpots * s := by
  unfold tSpots wrapInt
  have e : (h.defaultSpots * s + 2 ^ 63) % 2 ^ 64 = h.defaultSpots * s + 2 ^ 63 :=
    Int.emod_eq_of_lt (by omega) (by omega)
  omega

/-- Claim C5. With `b*s` the value `tSpots` that the code computes from the
base replica count `b` and the multiplier `s`, and `b*s ≥ 0`: `AddNode(name, s)`
keeps the existing entries unchanged and in place and appends exactly `b*s`
entries after them; the `i`-th appended entry (`i = 1..b*s`) has owner `name`
and the position of the string `name:i`; the number of entries grows by `b*s`,
and neither `defaultSpots` nor `length` changes. -/
theorem AddNode_appends_replicas (h : hashRing) (name : String) (s : Int)
    (hs : 0 ≤ tSpots h s) :
    (∀ k, ∀ hk : k < h.ticks.length, (AddNode h name s).ticks[k]? = some h.ticks[k]) ∧
      (∀ i : Nat, 1 ≤ i → (i : Int) ≤ tSpots h s →
        (AddNode h name s).ticks[h.ticks.length + (i - 1)]? =
          some ⟨name, position (name ++ ":" ++ Itoa i)⟩) ∧
      ((AddNode h name s).ticks.length : Int) = h.ticks.length + tSpots h s ∧
      (AddNode h name s).ticks = h.ticks ++ replicas name (tSpots h s).toNat ∧
      (AddNode h name s).defaultSpots = h.defaultSpots ∧
      (AddNode h name s).length = h.length := by
  rw [AddNode_eq]
  refine ⟨?_, ?_, ?_, rfl, rfl, rfl⟩
  · intro k hk
    simp [List.getElem?_append_left hk, List.getElem?_eq_getElem hk]
  · intro i hi1 hi2
    have hlt : i - 1 < (tSpots h s).toNat := by omega
    have := replicas_getElem? name _ _ hlt
    simp only [List.getElem?_append_right (Nat.le_add_right _ _), Nat.add_sub_cancel_left]
    rw [this]
    have : i - 1 + 1 = i := by omega
    rw [this]
  · simp only [List.length_append, replicas_length]
    push_cast
    omega

/-- Witness of `AddNode_appends_replicas`, the example of the specification:
base count 10 and one node "A" with multiplier 1 give exactly 10 entries, all
owned by "A", the first of them at the position of "A:1". -/
theorem AddNode_appends_replicas_witness :
    (0 : Int) ≤ tSpots (NewRing 10) 1 ∧
      ((AddNode (NewRing 10) "A" 1).ticks.length : Int) = 10 ∧
      (AddNode (NewRing 10) "A" 1).ticks[0]? = some ⟨"A", position "A:1"⟩ ∧
      ∀ t ∈ (AddNode (NewRing 10) "A" 1).ticks, t.node = "A" :=
  have hs : (0 : Int) ≤ tSpots (NewRing 10) 1 := by decide
  ⟨hs, (AddNode_appends_replicas (NewRing 10) "A" 1 hs).2.2.1,
    (AddNode_appends_replicas (NewRing 10) "A" 1 hs).2.1 1 (by decide) (by decide),
    fun t ht => replicas_node "A" _ t
      (by
        rw [(AddNode_appends_replicas (NewRing 10) "A" 1 hs).2.2.2.1] at ht
        exact ht)⟩

/-! ## `Bake` -/

/-- Claim C9. After `Bake` the entries are in non-decreasing order of
position, they are a permutation of the entries before the call, and the
`length` field is the number of entries. -/
theorem Bake_sorted_perm_length (h : hashRing) :
    (Bake h).ticks.Pairwise (fun a b => a.hash ≤ b.hash) ∧
      (∀ i j, ∀ hi : i < (Bake h).ticks.length, ∀ hj : j < (Bake h).ticks.length, i ≤ j →
        ((Bake h).ticks[i]).hash ≤ ((Bake h).ticks[j]).hash) ∧
      (Bake h).ticks.Perm h.ticks ∧
      (Bake h).length = (Bake h).ticks.length ∧
      (Bake h).ticks.length = h.ticks.length ∧
      (Bake h).defaultSpots = h.defaultSpots := by
  refine ⟨Bake_sorted h, ?_, Bake_perm h, rfl, (Bake_perm h).length_eq, rfl⟩
  intro i j hi hj hij
  exact (Bake_sorted h).rel_get_of_le (a := ⟨i, hi⟩) (b := ⟨j, hj⟩) hij

/-- Claim C10. `Bake` is idempotent: a second `Bake` right after a first one
leaves the ring, its entry sequence and its `length`, as the first one made it. -/
theorem Bake_idempotent (h : hashRing) : Bake (Bake h) = Bake h := by
  have e : (Bake h).ticks.Sort = (Bake h).ticks :=
    List.Sorted.insertionSort_eq (Bake_sorted h)
  show ({ Bake h with ticks := (Bake h).ticks.Sort, length := (Bake h).ticks.Sort.length } :
    hashRing) = Bake h
  rw [e]
  rfl

/-! ## Adding a node to a finalized ring -/

/-- The successor of `v` in a sorted non-empty list is an entry of the list;
it is the entry of least position among those at or after `v`, or the entry
of least position of all when every entry lies before `v`. -/
theorem successor_char (l : tickArray) (v : Nat) (hs : l.Sorted tickLE) (hne : l ≠ []) :
    ∃ t, successor l v = some t ∧ t ∈ l ∧
      ((v ≤ t.hash ∧ ∀ u ∈ l, v ≤ u.hash → t.hash ≤ u.hash) ∨
        ((∀ u ∈ l, u.hash < v) ∧ ∀ u ∈ l, t.hash ≤ u.hash)) := by
  obtain ⟨i, hi, hsucc, hcase⟩ := successor_index l v hne
  refine ⟨l[i], hsucc, List.getElem_mem _, ?_⟩
  rcases hcase with hidx | ⟨h0, hlen⟩
  · left
    have hlt : l.findIdx (fun t => decide (t.hash ≥ v)) < l.length := by omega
    constructor
    · have := List.findIdx_getElem (p := fun t : node => decide (t.hash ≥ v)) (w := hlt)
      simp only [decide_eq_true_eq] at this
      simpa [hidx] using this
    · intro u hu hvu
      obtain ⟨m, hm, rfl⟩ := List.getElem_of_mem hu
      have him : i ≤ m := by
        by_contra hcon
        have hmi : m < l.findIdx (fun t => decide (t.hash ≥ v)) := by omega
        have := List.not_of_lt_findIdx hmi
        simp at this
        omega
      exact hs.rel_get_of_le (a := ⟨i, hi⟩) (b := ⟨m, hm⟩) him
  · right
    subst h0
    rw [List.findIdx_eq_length] at hlen
    constructor
    · intro u hu
      have := hlen u hu
      simp only [decide_eq_false_iff_not] at this
      omega
    · intro u hu
      obtain ⟨m, hm, rfl⟩ := List.getElem_of_mem hu
      exact hs.rel_get_of_le (a := ⟨0, hi⟩) (b := ⟨m, hm⟩) (Nat.zero_le _)

/-- When no two entries of a sorted list share a position, the properties of
`successor_char` determine the successor. -/
theorem successor_unique (l : tickArray) (v : Nat) (hs : l.Sorted tickLE)
    (hinj : ∀ a ∈ l, ∀ b ∈ l, a.hash = b.hash → a = b) (t : node) (ht : t ∈ l)
    (hc : (v ≤ t.hash ∧ ∀ u ∈ l, v ≤ u.hash → t.hash ≤ u.hash) ∨
      ((∀ u ∈ l, u.hash < v) ∧ ∀ u ∈ l, t.hash ≤ u.hash)) :
    successor l v = some t := by
  obtain ⟨t0, h0, ht0, hc0⟩ := successor_char l v hs (List.ne_nil_of_mem ht)
  rw [h0]
  congr 1
  apply hinj t0 ht0 t ht
  rcases hc0 with ⟨a0, b0⟩ | ⟨a0, b0⟩ <;> rcases hc with ⟨a1, b1⟩ | ⟨a1, b1⟩
  · exact Nat.le_antisymm (b0 t ht a1) (b1 t0 ht0 a0)
  · have := a1 t0 ht0
    omega
  · have := a0 t ht
    omega
  · exact Nat.le_antisymm (b0 t ht) (b1 t0 ht0)

theorem nodup_hash_inj (l : tickArray) (hd : (l.map (fun t => t.hash)).Nodup) :
    ∀ a ∈ l, ∀ b ∈ l, a.hash = b.hash → a = b :=
  fun _ ha _ hb hab => List.inj_on_of_nodup_map hd ha hb hab

/-- Claim C4. Let `R = Bake h` be a non-empty finalized ring whose positions
are pairwise distinct, and `R' = Bake (AddNode R name s)`. For every key,
`Hash` on `R'` returns the owner it returned on `R` or the added name, so no
key moves from one earlier node to another; and when the owner changed, the
key's successor in `R'` is an entry created by this `AddNode`, at an index `i`
such that the key's position lies between that entry and the entries before
it (`ticks[k] < position ≤ ticks[i]` for all `k < i`, the immediate predecessor
included), or, for `i = 0`, after every position of `R'` (the circular case). -/
theorem AddNode_minimal_disruption (h : hashRing) (name : String) (s : Int) (key : String)
    (hne : h.ticks ≠ [])
    (hdist : ((Bake h).ticks.map (fun t => t.hash)).Nodup) :
    (Hash (Bake (AddNode (Bake h) name s)) key = Hash (Bake h) key ∨
        Hash (Bake (AddNode (Bake h) name s)) key = some name) ∧
      (Hash (Bake (AddNode (Bake h) name s)) key ≠ Hash (Bake h) key →
        Hash (Bake (AddNode (Bake h) name s)) key = some name ∧
        ∃ i, ∃ hi : i < (Bake (AddNode (Bake h) name s)).ticks.length,
          (Bake (AddNode (Bake h) name s)).ticks[i] ∈
            replicas name (tSpots (Bake h) s).toNat ∧
          ((position key ≤ ((Bake (AddNode (Bake h) name s)).ticks[i]).hash ∧
              ∀ k, ∀ hk : k < (Bake (AddNode (Bake h) name s)).ticks.length, k < i →
                ((Bake (AddNode (Bake h) name s)).ticks[k]).hash < position key) ∨
            (i = 0 ∧ ∀ t ∈ (Bake (AddNode (Bake h) name s)).ticks,
              t.hash < position key))) := by
  have hne1 := Bake_ne_nil h hne
  have hmem : ∀ t, t ∈ (Bake (AddNode (Bake h) name s)).ticks ↔
      t ∈ (Bake h).ticks ∨ t ∈ replicas name (tSpots (Bake h) s).toNat := by
    intro t
    rw [(Bake_perm (AddNode (Bake h) name s)).mem_iff, AddNode_eq]
    exact List.mem_append
  have hne2 : (Bake (AddNode (Bake h) name s)).ticks ≠ [] := by
    obtain ⟨t, ht⟩ := List.exists_mem_of_ne_nil _ hne1
    exact List.ne_nil_of_mem ((hmem t).mpr (Or.inl ht))
  have hs2 := Bake_sorted (AddNode (Bake h) name s)
  obtain ⟨i, hi, hsucc, hcase⟩ :=
    successor_index (Bake (AddNode (Bake h) name s)).ticks (position key) hne2
  obtain ⟨t, ht, htmem, htc⟩ :=
    successor_char (Bake (AddNode (Bake h) name s)).ticks (position key) hs2 hne2
  have hti : t = (Bake (AddNode (Bake h) name s)).ticks[i] := by
    rw [ht] at hsucc
    exact Option.some.inj hsucc
  have hH2 : Hash (Bake (AddNode (Bake h) name s)) key = some t.node := by
    rw [Hash_Bake, ht]
    rfl
  -- an old successor is the successor in the old ring
  have hold : t ∈ (Bake h).ticks → Hash (Bake h) key = some t.node := by
    intro htl
    have : successor (Bake h).ticks (position key) = some t := by
      apply successor_unique _ _ (Bake_sorted h) (nodup_hash_inj _ hdist) t htl
      rcases htc with ⟨a, b⟩ | ⟨a, b⟩
      · exact Or.inl ⟨a, fun u hu => b u ((hmem u).mpr (Or.inl hu))⟩
      · exact Or.inr ⟨fun u hu => a u ((hmem u).mpr (Or.inl hu)),
          fun u hu => b u ((hmem u).mpr (Or.inl hu))⟩
    rw [Hash_Bake, this]
    rfl
  have hnew : t ∈ replicas name (tSpots (Bake h) s).toNat →
      Hash (Bake (AddNode (Bake h) name s)) key = some name := by
    intro htn
    rw [hH2, replicas_node name _ t htn]
  constructor
  · rcases (hmem t).mp htmem with htl | htn
    · left
      rw [hH2, hold htl]
    · right
      exact hnew htn
  · intro hchange
    have htn : t ∈ replicas name (tSpots (Bake h) s).toNat := by
      rcases (hmem t).mp htmem with htl | htn
      · exact absurd (by rw [hH2, hold htl]) hchange
      · exact htn
    refine ⟨hnew htn, i, hi, hti ▸ htn, ?_⟩
    rcases hcase with hidx | ⟨h0, hlen⟩
    · left
      have hlt : (Bake (AddNode (Bake h) name s)).ticks.findIdx
          (fun t => decide (t.hash ≥ position key)) <
          (Bake (AddNode (Bake h) name s)).ticks.length := by omega
      constructor
      · have := List.findIdx_getElem
          (p := fun t : node => decide (t.hash ≥ position key)) (w := hlt)
        simp only [decide_eq_true_eq] at this
        simpa [hidx] using this
      · intro k hk hki
        have hk2 : k < (Bake (AddNode (Bake h) name s)).ticks.findIdx
            (fun t => decide (t.hash ≥ position key)) := by omega
        have := List.not_of_lt_findIdx hk2
        simp at this
        omega
    · right
      refine ⟨h0, ?_⟩
      rw [List.findIdx_eq_length] at hlen
      intro u hu
      have := hlen u hu
      simp only [decide_eq_false_iff_not] at this
      omega

/-- Witness of `AddNode_minimal_disruption`: the node "B" is added to the
finalized ring of "A" (one replica each), and the key is "foo". -/
theorem AddNode_minimal_disruption_witness :
    (Hash (Bake (AddNode (Bake (AddNode (NewRing 1) "A" 1)) "B" 1)) "foo" =
          Hash (Bake (AddNode (NewRing 1) "A" 1)) "foo" ∨
        Hash (Bake (AddNode (Bake (AddNode (NewRing 1) "A" 1)) "B" 1)) "foo" = some "B") ∧
      (Hash (Bake (AddNode (Bake (AddNode (NewRing 1) "A" 1)) "B" 1)) "foo" ≠
          Hash (Bake (AddNode (NewRing 1) "A" 1)) "foo" →
        Hash (Bake (AddNode (Bake (AddNode (NewRing 1) "A" 1)) "B" 1)) "foo" = some "B" ∧
        ∃ i, ∃ hi : i < (Bake (AddNode (Bake (AddNode (NewRing 1) "A" 1)) "B" 1)).ticks.length,
          (Bake (AddNode (Bake (AddNode (NewRing 1) "A" 1)) "B" 1)).ticks[i] ∈
            replicas "B" (tSpots (Bake (AddNode (NewRing 1) "A" 1)) 1).toNat ∧
          ((position "foo" ≤
                ((Bake (AddNode (Bake (AddNode (NewRing 1) "A" 1)) "B" 1)).ticks[i]).hash ∧
              ∀ k, ∀ hk : k <
                  (Bake (AddNode (Bake (AddNode (NewRing 1) "A" 1)) "B" 1)).ticks.length,
                k < i →
                ((Bake (AddNode (Bake (AddNode (NewRing 1) "A" 1)) "B" 1)).ticks[k]).hash <
                  position "foo") ∨
            (i = 0 ∧ ∀ t ∈ (Bake (AddNode (Bake (AddNode (NewRing 1) "A" 1)) "B" 1)).ticks,
              t.hash < position "foo"))) :=
  AddNode_minimal_disruption (AddNode (NewRing 1) "A" 1) "B" 1 "foo" (by decide)
    (by set_option maxRecDepth 100000 in decide)

theorem eq_of_map_hash_eq (l : tickArray)
    (hinj : ∀ a ∈ l, ∀ b ∈ l, a.hash = b.hash → a = b) :
    ∀ (xs ys : tickArray), (∀ t ∈ xs, t ∈ l) → (∀ t ∈ ys, t ∈ l) →
      xs.map (fun t => t.hash) = ys.map (fun t => t.hash) → xs = ys := by
  intro xs
  induction xs with
  | nil =>
    intro ys _ _ h
    cases ys with
    | nil => rfl
    | cons y ys => simp at h
  | cons x xs ih =>
    intro ys hx hy h
    cases ys with
    | nil => simp at h
    | cons y ys =>
      simp only [List.map_cons, List.cons.injEq] at h
      have e : x = y := hinj x (hx x (by simp)) y (hy y (by simp)) h.1
      rw [e, ih ys (fun t ht => hx t (by simp [ht])) (fun t ht => hy t (by simp [ht])) h.2]

/-! ## `DelNode` -/

theorem delStep_eq_position (name : String) (h : hashRing) (i : Nat) :
    delStep name h i =
      (Search h.length (fun x => (h.ticks[x]?).map
        (fun t => decide (t.hash ≥ position (name ++ ":" ++ Itoa i))))).bind
        (fun j => if j + 1 ≤ h.ticks.length then
          some { h with ticks := h.ticks.take j ++ h.ticks.drop (j + 1),
                        length := (h.ticks.take j ++ h.ticks.drop (j + 1)).length }
          else none) := rfl

theorem perm_take_drop_succ (l : tickArray) (j : Nat) (hj : j < l.length) :
    l.Perm (l[j] :: (l.take j ++ l.drop (j + 1))) := by
  have e : l = l.take j ++ l[j] :: l.drop (j + 1) := by
    rw [← List.drop_eq_getElem_cons hj, List.take_append_drop]
  have p : (l.take j ++ l[j] :: l.drop (j + 1)).Perm (l[j] :: (l.take j ++ l.drop (j + 1))) :=
    List.perm_middle
  exact (List.Perm.of_eq e).trans p

theorem sublist_take_drop_succ (l : tickArray) (j : Nat) :
    (l.take j ++ l.drop (j + 1)).Sublist l := by
  rw [← List.eraseIdx_eq_take_drop_succ]
  exact List.eraseIdx_sublist l j

/-- One step of `DelNode` on a sorted ring that holds an entry at the
recomputed position: the step succeeds and removes one entry at exactly that
position, the first one in the list. -/
theorem delStep_sorted (name : String) (h : hashRing) (i : Nat)
    (hs : h.ticks.Sorted tickLE) (hlen : h.length = h.ticks.length)
    (hex : ∃ t ∈ h.ticks, t.hash = position (name ++ ":" ++ Itoa i)) :
    ∃ r t, delStep name h i = some r ∧ t.hash = position (name ++ ":" ++ Itoa i) ∧
      h.ticks.Perm (t :: r.ticks) ∧ r.ticks.Sublist h.ticks ∧
      r.length = r.ticks.length ∧ r.defaultSpots = h.defaultSpots := by
  obtain ⟨t0, ht0, hv⟩ := hex
  have hlt : h.ticks.findIdx (fun t => decide (t.hash ≥ position (name ++ ":" ++ Itoa i))) <
      h.ticks.length := by
    apply List.findIdx_lt_length_of_exists
    exact ⟨t0, ht0, by simp [hv]⟩
  refine ⟨{ h with
      ticks := h.ticks.take (h.ticks.findIdx
          (fun t => decide (t.hash ≥ position (name ++ ":" ++ Itoa i)))) ++
        h.ticks.drop (h.ticks.findIdx
          (fun t => decide (t.hash ≥ position (name ++ ":" ++ Itoa i))) + 1),
      length := (h.ticks.take (h.ticks.findIdx
          (fun t => decide (t.hash ≥ position (name ++ ":" ++ Itoa i)))) ++
        h.ticks.drop (h.ticks.findIdx
          (fun t => decide (t.hash ≥ position (name ++ ":" ++ Itoa i))) + 1)).length },
    h.ticks[h.ticks.findIdx
      (fun t => decide (t.hash ≥ position (name ++ ":" ++ Itoa i)))], ?_, ?_,
    perm_take_drop_succ _ _ hlt, sublist_take_drop_succ _ _, rfl, rfl⟩
  · rw [delStep_eq_position, hlen, Search_sorted _ _ hs]
    simp only [Option.some_bind]
    rw [if_pos (by omega)]
  · apply Nat.le_antisymm
    · obtain ⟨m, hm, rfl⟩ := List.getElem_of_mem ht0
      have hjm : h.ticks.findIdx
          (fun t => decide (t.hash ≥ position (name ++ ":" ++ Itoa i))) ≤ m := by
        by_contra hcon
        have hmi : m < h.ticks.findIdx
            (fun t => decide (t.hash ≥ position (name ++ ":" ++ Itoa i))) := by omega
        have := List.not_of_lt_findIdx hmi
        simp at this
        omega
      have := hs.rel_get_of_le (a := ⟨_, hlt⟩) (b := ⟨m, hm⟩) hjm
      have h2 : (h.ticks[h.ticks.findIdx
          (fun t => decide (t.hash ≥ position (name ++ ":" ++ Itoa i)))]).hash ≤
          (h.ticks[m]).hash := this
      omega
    · have := List.findIdx_getElem
        (p := fun t : node => decide (t.hash ≥ position (name ++ ":" ++ Itoa i))) (w := hlt)
      simpa using this

/-- The loop of `DelNode` over the replica indices `is`, on a sorted ring that
holds an entry at each recomputed position (with multiplicity): it completes,
and what it removes are entries at exactly the recomputed positions, in the
order of the indices; the other entries stay, in their order. -/
theorem foldl_delStep (name : String) :
    ∀ (is : List Nat) (h : hashRing), h.ticks.Sorted tickLE → h.length = h.ticks.length →
      (is.map (fun i => position (name ++ ":" ++ Itoa i))).Subperm
        (h.ticks.map (fun t => t.hash)) →
      ∃ r removed,
        is.foldl (fun acc i => acc.bind fun r => delStep name r i) (some h) = some r ∧
        removed.map (fun t => t.hash) = is.map (fun i => position (name ++ ":" ++ Itoa i)) ∧
        h.ticks.Perm (removed ++ r.ticks) ∧ r.ticks.Sublist h.ticks ∧
        r.length = h.length - is.length ∧ r.length = r.ticks.length ∧
        r.defaultSpots = h.defaultSpots := by
  intro is
  induction is with
  | nil =>
    intro h _ hlen _
    exact ⟨h, [], rfl, rfl, List.Perm.refl _, List.Sublist.refl _, by simp, hlen, rfl⟩
  | cons i is ih =>
    intro h hs hlen hsub
    have hmem : position (name ++ ":" ++ Itoa i) ∈ h.ticks.map (fun t => t.hash) :=
      hsub.subset (by simp)
    obtain ⟨t0, ht0, hv0⟩ := List.mem_map.mp hmem
    obtain ⟨r1, t1, hstep, ht1, hperm1, hsl1, hlen1, hdef1⟩ :=
      delStep_sorted name h i hs hlen ⟨t0, ht0, hv0⟩
    have hsub1 : (is.map (fun i => position (name ++ ":" ++ Itoa i))).Subperm
        (r1.ticks.map (fun t => t.hash)) := by
      have hp : (h.ticks.map (fun t => t.hash)).Perm
          (position (name ++ ":" ++ Itoa i) :: r1.ticks.map (fun t => t.hash)) := by
        have := hperm1.map (fun t => t.hash)
        simpa [ht1] using this
      have : (position (name ++ ":" ++ Itoa i) ::
          is.map (fun i => position (name ++ ":" ++ Itoa i))).Subperm
          (position (name ++ ":" ++ Itoa i) :: r1.ticks.map (fun t => t.hash)) := by
        have h3 := hsub
        rw [List.map_cons] at h3
        exact (List.Perm.subperm_left hp).mp h3
      exact (List.subperm_cons _).mp this
    obtain ⟨r, removed, hfold, hrem, hperm, hsl, hcnt, hlen2, hdef2⟩ :=
      ih r1 (hs.sublist hsl1) hlen1 hsub1
    refine ⟨r, t1 :: removed, ?_, ?_, ?_, hsl.trans hsl1, ?_, hlen2, hdef2.trans hdef1⟩
    · rw [List.foldl_cons, Option.some_bind, hstep]
      exact hfold
    · simp [ht1, hrem]
    · exact hperm1.trans (List.Perm.cons t1 hperm)
    · have e1 : h.ticks.length = r1.ticks.length + 1 := by
        simpa using hperm1.length_eq
      simp only [List.length_cons]
      omega

theorem DelNode_eq (h : hashRing) (name : String) (s : Int) :
    DelNode h name s = (List.range' 1 (tSpots h s).toNat).foldl
      (fun acc i => acc.bind fun r => delStep name r i) (some h) := rfl

theorem replicas_map_hash (name : String) (n : Nat) :
    (replicas name n).map (fun t => t.hash) =
      (List.range' 1 n).map (fun i => position (name ++ ":" ++ Itoa i)) := by
  simp [replicas]

/-- `DelNode` on a finalized ring that contains the entries that
`AddNode(name, s)` creates. -/
theorem DelNode_Bake (h : hashRing) (name : String) (s : Int)
    (hcont : (replicas name (tSpots h s).toNat).Subperm (Bake h).ticks) :
    ∃ r removed, DelNode (Bake h) name s = some r ∧
      removed.map (fun t => t.hash) =
        (replicas name (tSpots h s).toNat).map (fun t => t.hash) ∧
      (Bake h).ticks.Perm (removed ++ r.ticks) ∧ r.ticks.Sublist (Bake h).ticks ∧
      r.length = (Bake h).length - (tSpots h s).toNat ∧ r.length = r.ticks.length ∧
      r.defaultSpots = h.defaultSpots := by
  have hsub : ((List.range' 1 (tSpots h s).toNat).map
      (fun i => position (name ++ ":" ++ Itoa i))).Subperm
      ((Bake h).ticks.map (fun t => t.hash)) := by
    rw [← replicas_map_hash]
    obtain ⟨l, hp, hsl⟩ := hcont
    exact ⟨l.map (fun t => t.hash), hp.map _, hsl.map _⟩
  obtain ⟨r, removed, h1, h2, h3, h4, h5, h6, h7⟩ :=
    foldl_delStep name _ (Bake h) (Bake_sorted h) (Bake_length h) hsub
  refine ⟨r, removed, h1, ?_, h3, h4, ?_, h6, h7⟩
  · rw [h2, replicas_map_hash]
  · simpa using h5

/-- Counterexample to claim C6 as stated: the replicas 28 and 31 of the name
"k2735397" have the same position, 442469042. The ring of `NewRing(1)`,
`AddNode("k2735397", 30)`, `Bake()` holds 30 entries, and among them, for
each replica index `i = 1..31`, the entry `(hash(name:i), name)`: the one for
`i = 31` is the one for `i = 28`. `DelNode("k2735397", 31)` has `b*s = 31`; it
removes the 30 entries and its last step slices an empty entry sequence out
of range, so it neither completes nor removes 31 entries. -/
theorem DelNode_shared_entry_counterexample :
    position ("k2735397" ++ ":" ++ Itoa 28) = 442469042 ∧
      position ("k2735397" ++ ":" ++ Itoa 31) = 442469042 ∧
      tSpots (Bake (AddNode (NewRing 1) "k2735397" 30)) 31 = 31 ∧
      (Bake (AddNode (NewRing 1) "k2735397" 30)).ticks.length = 30 ∧
      (∀ t ∈ replicas "k2735397" 31, t ∈ (Bake (AddNode (NewRing 1) "k2735397" 30)).ticks) ∧
      DelNode (Bake (AddNode (NewRing 1) "k2735397" 30)) "k2735397" 31 = none := by
  have h28 : position ("k2735397" ++ ":" ++ Itoa 28) = 442469042 := by
    set_option maxRecDepth 100000 in decide
  have h31 : position ("k2735397" ++ ":" ++ Itoa 31) = 442469042 := by
    set_option maxRecDepth 100000 in decide
  have hmem30 : ∀ t ∈ replicas "k2735397" 30,
      t ∈ (Bake (AddNode (NewRing 1) "k2735397" 30)).ticks := by
    intro t ht
    rw [(Bake_perm (AddNode (NewRing 1) "k2735397" 30)).mem_iff, AddNode_eq]
    exact List.mem_append_right _ ht
  refine ⟨h28, h31, by decide, ?_, ?_, ?_⟩
  · rw [(Bake_perm (AddNode (NewRing 1) "k2735397" 30)).length_eq, AddNode_eq]
    simp [replicas_length, NewRing]
    decide
  · intro t ht
    have hsplit : replicas "k2735397" 31 =
        replicas "k2735397" 30 ++ [⟨"k2735397", position ("k2735397" ++ ":" ++ Itoa 31)⟩] := by
      simp [replicas, List.range'_concat]
    rw [hsplit, List.mem_append, List.mem_singleton] at ht
    rcases ht with ht | ht
    · exact hmem30 t ht
    · apply hmem30
      rw [ht, h31, ← h28]
      simp only [replicas, List.mem_map, List.mem_range'_1]
      exact ⟨28, ⟨by decide, by decide⟩, rfl⟩
  · set_option maxRecDepth 1000000 in
    set_option maxHeartbeats 4000000 in
    decide

/-- Claim C6, amended. With `b*s` the value `tSpots` that the code computes,
the number of the replica indices `1..b*s`: on a ring finalized with `Bake`
that contains the entries `(hash(name:i), name)`, `i = 1..b*s`, that
`AddNode(name, s)` creates, each as often as `AddNode` creates it (two replica
indices with the same position need two entries), `DelNode(name, s)`
completes without an out-of-range access, reduces the number of entries by
exactly `b*s`, and leaves `length` equal to the number of entries. -/
theorem DelNode_reduces_count (h : hashRing) (name : String) (s : Int)
    (hcont : (replicas name (tSpots h s).toNat).Subperm (Bake h).ticks) :
    ∃ r, DelNode (Bake h) name s = some r ∧
      r.ticks.length + (tSpots h s).toNat = (Bake h).ticks.length ∧
      (0 ≤ tSpots h s → (r.ticks.length : Int) = (Bake h).ticks.length - tSpots h s) ∧
      r.length = r.ticks.length := by
  obtain ⟨r, removed, h1, _, _, _, h5, h6, _⟩ := DelNode_Bake h name s hcont
  have hle : (tSpots h s).toNat ≤ (Bake h).ticks.length := by
    have := hcont.length_le
    rwa [replicas_length] at this
  rw [Bake_length] at h5
  refine ⟨r, h1, by omega, ?_, h6⟩
  intro hs
  omega

/-- Witness of `DelNode_reduces_count`: removing "B" from the finalized ring of
"A" and "B" with two replicas each. -/
theorem DelNode_reduces_count_witness :
    ∃ r, DelNode (Bake (AddNode (AddNode (NewRing 2) "A" 1) "B" 1)) "B" 1 = some r ∧
      r.ticks.length + (tSpots (AddNode (AddNode (NewRing 2) "A" 1) "B" 1) 1).toNat =
        (Bake (AddNode (AddNode (NewRing 2) "A" 1) "B" 1)).ticks.length ∧
      (0 ≤ tSpots (AddNode (AddNode (NewRing 2) "A" 1) "B" 1) 1 →
        (r.ticks.length : Int) =
          (Bake (AddNode (AddNode (NewRing 2) "A" 1) "B" 1)).ticks.length -
            tSpots (AddNode (AddNode (NewRing 2) "A" 1) "B" 1) 1) ∧
      r.length = r.ticks.length :=
  DelNode_reduces_count (AddNode (AddNode (NewRing 2) "A" 1) "B" 1) "B" 1
    ⟨[⟨"B", 784650640⟩, ⟨"B", 3769265964⟩],
      by set_option maxRecDepth 100000 in decide,
      by set_option maxRecDepth 100000 in decide⟩

/-- Claim C7 at its failing input. The finalized ring holds the one entry of
"B" (position 3769265964) and no entry of "A"; `DelNode("A", 1)` recomputes
the position 727404730 of "A:1", takes the first entry at or after it without
comparing position or owner, and so completes and removes the entry of "B".
On the ring that holds only the entry of "A", `DelNode("B", 1)` finds no
entry at or after 3769265964 and ends in a slice bound out of range. In
neither case is there a node-not-found answer. -/
theorem DelNode_removes_other_entry :
    (Bake (AddNode (NewRing 1) "B" 1)).ticks = [⟨"B", 3769265964⟩] ∧
      tSpots (Bake (AddNode (NewRing 1) "B" 1)) 1 = 1 ∧
      position ("A" ++ ":" ++ Itoa 1) = 727404730 ∧
      DelNode (Bake (AddNode (NewRing 1) "B" 1)) "A" 1 = some ⟨1, [], 0⟩ ∧
      (Bake (AddNode (NewRing 1) "A" 1)).ticks = [⟨"A", 727404730⟩] ∧
      position ("B" ++ ":" ++ Itoa 1) = 3769265964 ∧
      DelNode (Bake (AddNode (NewRing 1) "A" 1)) "B" 1 = none := by
  set_option maxRecDepth 100000 in decide

/-- What `DelNode` removes when nothing is missing: on a ring finalized with
`Bake` that contains the entries that `AddNode(name, s)` creates (each as
often as `AddNode` creates it), `DelNode(name, s)` completes, and the entries
it removes, one for each replica index `i` in turn, have position equal to
the recomputed hash of `name:i`; when moreover no two entries of the ring
share a position, the removed entries are exactly those of `name`. The
entries that remain keep their order. -/
theorem DelNode_removes_replica_positions (h : hashRing) (name : String) (s : Int)
    (hcont : (replicas name (tSpots h s).toNat).Subperm (Bake h).ticks) :
    ∃ r removed, DelNode (Bake h) name s = some r ∧
      (Bake h).ticks.Perm (removed ++ r.ticks) ∧ r.ticks.Sublist (Bake h).ticks ∧
      removed.map (fun t => t.hash) =
        (List.range' 1 (tSpots h s).toNat).map
          (fun i => position (name ++ ":" ++ Itoa i)) ∧
      (((Bake h).ticks.map (fun t => t.hash)).Nodup →
        removed = replicas name (tSpots h s).toNat) := by
  obtain ⟨r, removed, h1, h2, h3, h4, _, _, _⟩ := DelNode_Bake h name s hcont
  refine ⟨r, removed, h1, h3, h4, ?_, ?_⟩
  · rw [h2, replicas_map_hash]
  · intro hnd
    have hinj := nodup_hash_inj _ hnd
    have hr : ∀ t ∈ removed, t ∈ (Bake h).ticks :=
      fun t ht => h3.mem_iff.mpr (List.mem_append_left _ ht)
    have hn : ∀ t ∈ replicas name (tSpots h s).toNat, t ∈ (Bake h).ticks :=
      fun t ht => hcont.subset ht
    exact eq_of_map_hash_eq _ hinj removed _ hr hn h2

/-- Witness of `DelNode_removes_replica_positions`: removing "B" from the
finalized ring of "A" and "B" with one replica each. -/
theorem DelNode_removes_replica_positions_witness :
    ∃ r removed, DelNode (Bake (AddNode (AddNode (NewRing 1) "A" 1) "B" 1)) "B" 1 = some r ∧
      (Bake (AddNode (AddNode (NewRing 1) "A" 1) "B" 1)).ticks.Perm (removed ++ r.ticks) ∧
      r.ticks.Sublist (Bake (AddNode (AddNode (NewRing 1) "A" 1) "B" 1)).ticks ∧
      removed.map (fun t => t.hash) =
        (List.range' 1 (tSpots (AddNode (AddNode (NewRing 1) "A" 1) "B" 1) 1).toNat).map
          (fun i => position ("B" ++ ":" ++ Itoa i)) ∧
      (((Bake (AddNode (AddNode (NewRing 1) "A" 1) "B" 1)).ticks.map
          (fun t => t.hash)).Nodup →
        removed = replicas "B" (tSpots (AddNode (AddNode (NewRing 1) "A" 1) "B" 1) 1).toNat) :=
  DelNode_removes_replica_positions (AddNode (AddNode (NewRing 1) "A" 1) "B" 1) "B" 1
    ⟨[⟨"B", 3769265964⟩],
      by set_option maxRecDepth 100000 in decide,
      by set_option maxRecDepth 100000 in decide⟩

/-- Claim C8 at its failing input. The names "node797" and "node65233" have
the same position for replica 1 (1206492108). On the finalized ring of these
two nodes (base count 1, multiplier 1), `DelNode("node65233", 1)` removes the
entry of "node797", which comes first, and keeps the entry of "node65233":
after a further `Bake` every key resolves to the removed name. -/
theorem DelNode_collision_keeps_deleted_name :
    position ("node797" ++ ":" ++ Itoa 1) = position ("node65233" ++ ":" ++ Itoa 1) ∧
      (Bake (AddNode (AddNode (NewRing 1) "node797" 1) "node65233" 1)).ticks =
        [⟨"node797", 1206492108⟩, ⟨"node65233", 1206492108⟩] ∧
      DelNode (Bake (AddNode (AddNode (NewRing 1) "node797" 1) "node65233" 1)) "node65233" 1 =
        some ⟨1, [⟨"node65233", 1206492108⟩], 1⟩ ∧
      ∀ key, Hash (Bake ⟨1, [⟨"node65233", 1206492108⟩], 1⟩) key = some "node65233" := by
  refine ⟨by set_option maxRecDepth 100000 in decide,
    by set_option maxRecDepth 100000 in decide,
    by set_option maxRecDepth 100000 in decide, ?_⟩
  intro key
  have hb : (Bake ⟨1, [⟨"node65233", 1206492108⟩], 1⟩).ticks =
      [⟨"node65233", 1206492108⟩] := by decide
  obtain ⟨i, hi, hsucc, _⟩ := successor_index
    (Bake ⟨1, [⟨"node65233", 1206492108⟩], 1⟩).ticks (position key) (by rw [hb]; simp)
  rw [Hash_Bake, hsucc]
  have hi1 : i = 0 := by
    rw [hb] at hi
    simpa using hi
  subst hi1
  simp [hb]

/-! ## Lookup and removal on rings that are not finalized -/

theorem searchLoop_bounds (f : Nat → Option Bool) :
    ∀ fuel i j k, i ≤ j → searchLoop f fuel i j = some k → i ≤ k ∧ k ≤ j := by
  intro fuel
  induction fuel with
  | zero =>
    intro i j k hij h
    simp only [searchLoop, Option.some.injEq] at h
    omega
  | succ m ih =>
    intro i j k hij h
    by_cases hlt : i < j
    · simp only [searchLoop, hlt, if_true] at h
      cases hf : f ((i + j) / 2) with
      | none => simp [hf] at h
      | some b =>
        cases b with
        | false =>
          simp only [hf] at h
          have := ih _ _ _ (by omega) h
          omega
        | true =>
          simp only [hf] at h
          have := ih _ _ _ (by omega) h
          omega
    · simp only [searchLoop, hlt, if_false, Option.some.injEq] at h
      omega

/-- The search only calls its predicate below `j`. -/
theorem searchLoop_congr (f g : Nat → Option Bool) (n : Nat) (hfg : ∀ x, x < n → f x = g x) :
    ∀ fuel i j, j ≤ n → searchLoop f fuel i j = searchLoop g fuel i j := by
  intro fuel
  induction fuel with
  | zero => intro i j _; rfl
  | succ m ih =>
    intro i j hjn
    by_cases hlt : i < j
    · simp only [searchLoop, hlt, if_true]
      rw [hfg _ (by omega), ih _ _ hjn, ih _ _ (by omega)]
    · simp only [searchLoop, hlt, if_false]

/-- A predicate that does not panic below `n` lets the search return. -/
theorem searchLoop_total (f : Nat → Option Bool) (n : Nat)
    (hf : ∀ x, x < n → ∃ b, f x = some b) :
    ∀ fuel i j, j ≤ n → ∃ k, searchLoop f fuel i j = some k := by
  intro fuel
  induction fuel with
  | zero => intro i j _; exact ⟨i, rfl⟩
  | succ m ih =>
    intro i j hjn
    by_cases hlt : i < j
    · obtain ⟨b, hb⟩ := hf ((i + j) / 2) (by omega)
      simp only [searchLoop, hlt, if_true, hb]
      cases b with
      | false => exact ih _ _ hjn
      | true => exact ih _ _ (by omega)
    · exact ⟨i, by simp only [searchLoop, hlt, if_false]⟩

/-- Entries appended beyond `length` do not change the answer of `Hash` on a
ring that holds at least one entry and whose `length` does not exceed the
number of entries. -/
theorem Hash_append_ticks (h : hashRing) (extra : tickArray) (s : String)
    (hne : h.ticks ≠ []) (hlen : h.length ≤ h.ticks.length) :
    Hash { h with ticks := h.ticks ++ extra } s = Hash h s := by
  rw [Hash_eq_position, Hash_eq_position]
  have hsearch : Search h.length (fun i => ((h.ticks ++ extra)[i]?).map
        (fun t => decide (t.hash ≥ position s))) =
      Search h.length (fun i => (h.ticks[i]?).map (fun t => decide (t.hash ≥ position s))) := by
    unfold Search
    apply searchLoop_congr _ _ h.length _ _ _ _ (Nat.le_refl _)
    intro x hx
    rw [List.getElem?_append_left (by omega)]
  show (Search h.length (fun i => ((h.ticks ++ extra)[i]?).map
        (fun t => decide (t.hash ≥ position s)))).bind
      (fun i => ((h.ticks ++ extra)[if i = h.length then 0 else i]?).map (fun t => t.node)) = _
  rw [hsearch]
  cases hk : Search h.length
      (fun i => (h.ticks[i]?).map (fun t => decide (t.hash ≥ position s))) with
  | none => rfl
  | some k =>
    have hb := searchLoop_bounds _ _ _ _ _ (Nat.zero_le _) hk
    have hpos : 0 < h.ticks.length := List.length_pos.mpr hne
    simp only [Option.some_bind]
    by_cases hkl : k = h.length
    · simp only [hkl, if_true]
      rw [List.getElem?_append_left hpos]
    · simp only [hkl, if_false]
      rw [List.getElem?_append_left (by omega)]

/-- `Hash` returns on every ring that holds at least one entry and whose
`length` does not exceed the number of entries. -/
theorem Hash_total (h : hashRing) (s : String)
    (hne : h.ticks ≠ []) (hlen : h.length ≤ h.ticks.length) :
    ∃ name, Hash h s = some name := by
  rw [Hash_eq_position]
  obtain ⟨k, hk⟩ := searchLoop_total
    (fun i => (h.ticks[i]?).map (fun t => decide (t.hash ≥ position s))) h.length
    (by
      intro x hx
      have hx2 : x < h.ticks.length := by omega
      simp only [List.getElem?_eq_getElem hx2, Option.map_some']
      exact ⟨_, rfl⟩)
    h.length 0 h.length (Nat.le_refl _)
  have hk2 : Search h.length
      (fun i => (h.ticks[i]?).map (fun t => decide (t.hash ≥ position s))) = some k := hk
  have hb := searchLoop_bounds _ _ _ _ _ (Nat.zero_le _) hk
  have hpos : 0 < h.ticks.length := List.length_pos.mpr hne
  rw [hk2]
  simp only [Option.some_bind]
  by_cases hkl : k = h.length
  · simp only [hkl, if_true, List.getElem?_eq_getElem hpos, Option.map_some']
    exact ⟨_, rfl⟩
  · have hk3 : k < h.ticks.length := by omega
    simp only [hkl, if_false, List.getElem?_eq_getElem hk3, Option.map_some']
    exact ⟨_, rfl⟩

theorem AddNodes_eq (calls : List (String × Int)) :
    ∀ h : hashRing, ∃ extra, AddNodes h calls = { h with ticks := h.ticks ++ extra } := by
  induction calls with
  | nil => intro h; exact ⟨[], by simp [AddNodes]⟩
  | cons c cs ih =>
    intro h
    obtain ⟨extra, he⟩ := ih (AddNode h c.1 c.2)
    refine ⟨replicas c.1 (tSpots h c.2).toNat ++ extra, ?_⟩
    have : AddNodes h (c :: cs) = AddNodes (AddNode h c.1 c.2) cs := rfl
    rw [this, he, AddNode_eq]
    simp

theorem foldl_delStep_none (name : String) (is : List Nat) :
    is.foldl (fun acc i => acc.bind fun r => delStep name r i) none = none := by
  induction is with
  | nil => rfl
  | cons i is ih => simpa using ih

/-- A step of `DelNode` that completes removes one index and sets `length` to
the number of entries that remain. -/
theorem delStep_some (name : String) (h r : hashRing) (i : Nat)
    (hstep : delStep name h i = some r) :
    r.ticks.Sublist h.ticks ∧ r.ticks.length + 1 = h.ticks.length ∧
      r.length = r.ticks.length ∧ r.defaultSpots = h.defaultSpots := by
  rw [delStep_eq_position] at hstep
  cases hk : Search h.length (fun x => (h.ticks[x]?).map
      (fun t => decide (t.hash ≥ position (name ++ ":" ++ Itoa i)))) with
  | none => simp [hk] at hstep
  | some j =>
    rw [hk] at hstep
    simp only [Option.some_bind] at hstep
    by_cases hj : j + 1 ≤ h.ticks.length
    · rw [if_pos hj] at hstep
      have e := Option.some.inj hstep
      subst e
      refine ⟨sublist_take_drop_succ _ _, ?_, rfl, rfl⟩
      simp only [List.length_append, List.length_take, List.length_drop]
      omega
    · rw [if_neg hj] at hstep
      exact absurd hstep (by simp)

theorem foldl_delStep_some (name : String) :
    ∀ (is : List Nat) (h r : hashRing),
      is.foldl (fun acc i => acc.bind fun r => delStep name r i) (some h) = some r →
      r.ticks.Sublist h.ticks ∧ r.ticks.length + is.length = h.ticks.length ∧
        (h.length = h.ticks.length → r.length = r.ticks.length) ∧
        r.defaultSpots = h.defaultSpots := by
  intro is
  induction is with
  | nil =>
    intro h r hf
    have e : h = r := Option.some.inj hf
    subst e
    exact ⟨List.Sublist.refl _, rfl, fun x => x, rfl⟩
  | cons i is ih =>
    intro h r hf
    rw [List.foldl_cons, Option.some_bind] at hf
    cases hstep : delStep name h i with
    | none =>
      rw [hstep, foldl_delStep_none] at hf
      exact absurd hf (by simp)
    | some h1 =>
      rw [hstep] at hf
      obtain ⟨a1, a2, a3, a4⟩ := delStep_some name h h1 i hstep
      obtain ⟨b1, b2, b3, b4⟩ := ih h1 r hf
      refine ⟨b1.trans a1, ?_, fun _ => b3 a3, b4.trans a4⟩
      simp only [List.length_cons]
      omega

/-- Claim C11. On a ring in the finalized state (entries sorted ascending by
position, `length` equal to the number of entries), every `DelNode(name, s)`
call that completes leaves the ring in the finalized state: the remaining
entries are sorted ascending by position, they are the earlier entries in
their earlier relative order, and `length` is the number of entries; a `Bake`
after it changes nothing. -/
theorem DelNode_keeps_finalized (h r : hashRing) (name : String) (s : Int)
    (hs : h.ticks.Pairwise (fun a b => a.hash ≤ b.hash))
    (hlen : h.length = h.ticks.length)
    (hdel : DelNode h name s = some r) :
    r.ticks.Pairwise (fun a b => a.hash ≤ b.hash) ∧ r.ticks.Sublist h.ticks ∧
      r.length = r.ticks.length ∧ Bake r = r := by
  obtain ⟨a1, _, a3, _⟩ := foldl_delStep_some name _ h r hdel
  refine ⟨hs.sublist a1, a1, a3 hlen, ?_⟩
  have e : r.ticks.Sort = r.ticks :=
    List.Sorted.insertionSort_eq (show r.ticks.Sorted tickLE from hs.sublist a1)
  have hl := a3 hlen
  show ({ r with ticks := r.ticks.Sort, length := r.ticks.Sort.length } : hashRing) = r
  rw [e]
  cases r
  simp only at hl
  subst hl
  rfl

/-- Witness of `DelNode_keeps_finalized`: removing "B" from the finalized ring
of "A" and "B" with one replica each leaves the entry of "A". -/
theorem DelNode_keeps_finalized_witness :
    (([⟨"A", 727404730⟩] : tickArray).Pairwise (fun a b => a.hash ≤ b.hash)) ∧
      ([⟨"A", 727404730⟩] : tickArray).Sublist
        (Bake (AddNode (AddNode (NewRing 1) "A" 1) "B" 1)).ticks ∧
      (1 : Nat) = ([⟨"A", 727404730⟩] : tickArray).length ∧
      Bake ⟨1, [⟨"A", 727404730⟩], 1⟩ = (⟨1, [⟨"A", 727404730⟩], 1⟩ : hashRing) :=
  DelNode_keeps_finalized (Bake (AddNode (AddNode (NewRing 1) "A" 1) "B" 1))
    ⟨1, [⟨"A", 727404730⟩], 1⟩ "B" 1
    (Bake_sorted (AddNode (AddNode (NewRing 1) "A" 1) "B" 1))
    (Bake_length (AddNode (AddNode (NewRing 1) "A" 1) "B" 1))
    (by set_option maxRecDepth 100000 in decide)

/-- Claim C12 at its failing input. On a ring fresh from `NewRing`, with or
without `Bake`, `sort.Search(0, _)` returns 0, which equals `length`, so the
index stays 0 and `h.ticks[0]` is read from an empty entry sequence: `Hash`
ends in an index out of range for every key, and there is no empty-ring
check before it. -/
theorem Hash_empty_ring_out_of_range :
    ∀ (n : Int) (key : String),
      (NewRing n).length = 0 ∧ (NewRing n).ticks[0]? = none ∧
      (Bake (NewRing n)).length = 0 ∧ (Bake (NewRing n)).ticks[0]? = none ∧
      Hash (NewRing n) key = none ∧ Hash (Bake (NewRing n)) key = none := by
  intro n key
  exact ⟨rfl, rfl, rfl, rfl, rfl, rfl⟩

/-- Counterexample to claim C13 as stated: "B" is added to the finalized ring
of "A" and `Bake` is not called again. `Hash("foo")` does not fail and answers
"A" from the one entry counted by `length`, while after `Bake` the same key
resolves to "B". -/
theorem Hash_stale_counterexample :
    (AddNode (Bake (AddNode (NewRing 1) "A" 1)) "B" 1).ticks =
        [⟨"A", 727404730⟩, ⟨"B", 3769265964⟩] ∧
      (AddNode (Bake (AddNode (NewRing 1) "A" 1)) "B" 1).length = 1 ∧
      Hash (AddNode (Bake (AddNode (NewRing 1) "A" 1)) "B" 1) "foo" = some "A" ∧
      Hash (Bake (AddNode (Bake (AddNode (NewRing 1) "A" 1)) "B" 1)) "foo" = some "B" := by
  set_option maxRecDepth 100000 in decide

/-- `Hash` returns the owner of an entry on every ring that holds at least one
entry and whose `length` does not exceed the number of entries. -/
theorem Hash_returns_entry_owner (h : hashRing) (s : String)
    (hne : h.ticks ≠ []) (hlen : h.length ≤ h.ticks.length) :
    ∃ name, Hash h s = some name ∧ ∃ t ∈ h.ticks, t.node = name := by
  rw [Hash_eq_position]
  obtain ⟨k, hk⟩ := searchLoop_total
    (fun i => (h.ticks[i]?).map (fun t => decide (t.hash ≥ position s))) h.length
    (by
      intro x hx
      have hx2 : x < h.ticks.length := by omega
      simp only [List.getElem?_eq_getElem hx2, Option.map_some']
      exact ⟨_, rfl⟩)
    h.length 0 h.length (Nat.le_refl _)
  have hk2 : Search h.length
      (fun i => (h.ticks[i]?).map (fun t => decide (t.hash ≥ position s))) = some k := hk
  have hb := searchLoop_bounds _ _ _ _ _ (Nat.zero_le _) hk
  have hpos : 0 < h.ticks.length := List.length_pos.mpr hne
  rw [hk2]
  simp only [Option.some_bind]
  by_cases hkl : k = h.length
  · simp only [hkl, if_true, List.getElem?_eq_getElem hpos, Option.map_some']
    exact ⟨_, rfl, h.ticks[0], List.getElem_mem _, rfl⟩
  · have hk3 : k < h.ticks.length := by omega
    simp only [hkl, if_false, List.getElem?_eq_getElem hk3, Option.map_some']
    exact ⟨_, rfl, h.ticks[k], List.getElem_mem _, rfl⟩

/-- Claim C13, amended. On a non-empty ring finalized with `Bake` on which
`AddNode` has then been called any number of times, `Hash` neither fails nor
finalizes (it is a function of the ring and the key, and has no other
result than a name): for every key it completes and returns the owner of an
entry of the ring. Which entry it takes before the next `Bake` is not part
of this statement. -/
theorem Hash_unfinalized_returns_owner (h : hashRing) (calls : List (String × Int))
    (key : String) (hne : h.ticks ≠ []) :
    ∃ name, Hash (AddNodes (Bake h) calls) key = some name ∧
      ∃ t ∈ (AddNodes (Bake h) calls).ticks, t.node = name := by
  obtain ⟨extra, he⟩ := AddNodes_eq calls (Bake h)
  rw [he]
  apply Hash_returns_entry_owner
  · intro hnil
    have hnil2 : (Bake h).ticks ++ extra = [] := hnil
    exact Bake_ne_nil h hne (List.append_eq_nil.mp hnil2).1
  · show (Bake h).length ≤ ((Bake h).ticks ++ extra).length
    rw [Bake_length, List.length_append]
    omega

/-- Witness of `Hash_unfinalized_returns_owner`: "B" and "C" are added to the
finalized ring of "A". -/
theorem Hash_unfinalized_returns_owner_witness :
    ∃ name,
      Hash (AddNodes (Bake (AddNode (NewRing 1) "A" 1)) [("B", 1), ("C", 2)]) "foo" =
        some name ∧
      ∃ t ∈ (AddNodes (Bake (AddNode (NewRing 1) "A" 1)) [("B", 1), ("C", 2)]).ticks,
        t.node = name :=
  Hash_unfinalized_returns_owner (AddNode (NewRing 1) "A" 1) [("B", 1), ("C", 2)] "foo"
    (by decide)

/-- Claim C18 at its failing input. After `NewRing(1)` and `AddNode("A", 1)`
the ring holds one entry and `length` is still 0: `AddNode` never assigns
`length`, which only `Bake` and `DelNode` set to `len(h.ticks)`. -/
theorem AddNode_leaves_length_stale :
    (AddNode (NewRing 1) "A" 1).ticks.length = 1 ∧
      (AddNode (NewRing 1) "A" 1).length = 0 ∧
      ∀ (h : hashRing) (name : String) (s : Int), (AddNode h name s).length = h.length := by
  refine ⟨by decide, by decide, ?_⟩
  intro h name s
  rw [AddNode_eq]

theorem AddNodes_NewRing_length (b : Int) (calls : List (String × Int)) :
    (AddNodes (NewRing b) calls).length = 0 := by
  obtain ⟨extra, he⟩ := AddNodes_eq calls (NewRing b)
  rw [he]
  rfl

/-- On a ring whose `length` is 0, `Hash` returns the owner of the first
entry, whatever the key. -/
theorem Hash_length_zero (h : hashRing) (key : String) (first : node)
    (hlen : h.length = 0) (hfirst : h.ticks[0]? = some first) :
    Hash h key = some first.node := by
  rw [Hash_eq_position, hlen]
  show (some 0 : Option Nat).bind
    (fun i => (h.ticks[if i = 0 then 0 else i]?).map (fun t => t.node)) = _
  simp [hfirst]

/-- Claim C20. Entries added after the last `Bake` are invisible to lookup:
on a non-empty ring finalized with `Bake`, `AddNode` leaves `length` as it was
and `Hash` returns, for every key, the owner it returned before the call. On
a ring that was never baked, built from `NewRing` by `AddNode` calls, `length`
is 0 and `Hash` returns for every key the owner of the entry at index 0, the
first entry ever added, which stays at index 0 under further `AddNode` calls. -/
theorem Hash_ignores_entries_after_Bake (h : hashRing) (name : String) (s : Int)
    (key : String) (b : Int) (calls : List (String × Int)) (first : node)
    (hne : h.ticks ≠ [])
    (hfirst : (AddNodes (NewRing b) calls).ticks[0]? = some first) :
    (Hash (AddNode (Bake h) name s) key = Hash (Bake h) key ∧
        (AddNode (Bake h) name s).length = (Bake h).length) ∧
      ((AddNodes (NewRing b) calls).length = 0 ∧
        Hash (AddNodes (NewRing b) calls) key = some first.node ∧
        ∀ more, (AddNodes (AddNodes (NewRing b) calls) more).ticks[0]? = some first) := by
  refine ⟨⟨?_, ?_⟩, AddNodes_NewRing_length b calls, ?_, ?_⟩
  · rw [AddNode_eq]
    exact Hash_append_ticks (Bake h) _ key (Bake_ne_nil h hne) (Nat.le_of_eq (Bake_length h))
  · rw [AddNode_eq]
  · exact Hash_length_zero _ key first (AddNodes_NewRing_length b calls) hfirst
  · intro more
    obtain ⟨extra, he⟩ := AddNodes_eq more (AddNodes (NewRing b) calls)
    rw [he]
    show ((AddNodes (NewRing b) calls).ticks ++ extra)[0]? = some first
    have hpos : 0 < (AddNodes (NewRing b) calls).ticks.length := by
      by_contra hcon
      have : (AddNodes (NewRing b) calls).ticks = [] := List.length_eq_zero.mp (by omega)
      rw [this] at hfirst
      simp at hfirst
    rw [List.getElem?_append_left hpos]
    exact hfirst

/-- Witness of `Hash_ignores_entries_after_Bake`: "B" is added to the finalized
ring of "A"; the ring that was never baked is built by adding "A" and then
"B", and its first entry is the one of "A". -/
theorem Hash_ignores_entries_after_Bake_witness :
    (Hash (AddNode (Bake (AddNode (NewRing 1) "A" 1)) "B" 1) "foo" =
          Hash (Bake (AddNode (NewRing 1) "A" 1)) "foo" ∧
        (AddNode (Bake (AddNode (NewRing 1) "A" 1)) "B" 1).length =
          (Bake (AddNode (NewRing 1) "A" 1)).length) ∧
      ((AddNodes (NewRing 1) [("A", 1), ("B", 1)]).length = 0 ∧
        Hash (AddNodes (NewRing 1) [("A", 1), ("B", 1)]) "foo" =
          some (⟨"A", 727404730⟩ : node).node ∧
        ∀ more, (AddNodes (AddNodes (NewRing 1) [("A", 1), ("B", 1)]) more).ticks[0]? =
          some ⟨"A", 727404730⟩) :=
  Hash_ignores_entries_after_Bake (AddNode (NewRing 1) "A" 1) "B" 1 "foo" 1
    [("A", 1), ("B", 1)] ⟨"A", 727404730⟩ (by decide)
    (by set_option maxRecDepth 100000 in decide)

/-! ## Arguments that are not positive -/

theorem AddNode_of_nonpos (h : hashRing) (name : String) (s : Int) (hs : tSpots h s ≤ 0) :
    AddNode h name s = h := by
  have e : (tSpots h s).toNat = 0 := by omega
  unfold AddNode
  rw [e]
  rfl

theorem DelNode_of_nonpos (h : hashRing) (name : String) (s : Int) (hs : tSpots h s ≤ 0) :
    DelNode h name s = some h := by
  have e : (tSpots h s).toNat = 0 := by omega
  unfold DelNode
  rw [e]
  rfl

/-- Counterexample to claim C14 as stated: `NewRing(0)` and `NewRing(-1)` build
a ring; `AddNode` and `DelNode` with a zero base count or a zero or negative
multiplier complete and leave the ring as it was; and with base count -1 and
multiplier -1 `AddNode` adds the entry of "A:1". -/
theorem nonpositive_arguments_counterexample :
    AddNode (NewRing 0) "A" 1 = NewRing 0 ∧
      AddNode (NewRing 1) "A" 0 = NewRing 1 ∧
      AddNode (NewRing 1) "A" (-1) = NewRing 1 ∧
      DelNode (NewRing 1) "A" 0 = some (NewRing 1) ∧
      (AddNode (NewRing (-1)) "A" (-1)).ticks = [⟨"A", 727404730⟩] := by
  refine ⟨by decide, by decide, by decide, by decide, ?_⟩
  set_option maxRecDepth 100000 in decide

/-- Claim C14, amended. No base replica count and no multiplier is rejected:
`NewRing(n)` builds an empty ring with base count `n` for every integer `n`,
and `AddNode` always completes. With `b*s` the value `tSpots` that the code
computes: when `b*s ≤ 0`, `AddNode` and `DelNode` complete and leave the ring
as it was; when `b*s > 0`, `AddNode` appends `b*s` entries, and this is the
case when the base count and the multiplier are both negative (their product
fitting Go's `int`). -/
theorem arguments_are_not_validated (h : hashRing) (name : String) (s n : Int) :
    NewRing n = ⟨n, [], 0⟩ ∧
      (AddNode h name s).ticks = h.ticks ++ replicas name (tSpots h s).toNat ∧
      (tSpots h s ≤ 0 → AddNode h name s = h ∧ DelNode h name s = some h) ∧
      (0 < tSpots h s →
        ((AddNode h name s).ticks.length : Int) = h.ticks.length + tSpots h s) ∧
      (h.defaultSpots < 0 → s < 0 → h.defaultSpots * s < (2 : Int) ^ 63 →
        0 < tSpots h s) := by
  refine ⟨rfl, by rw [AddNode_eq], ?_, ?_, ?_⟩
  · intro hs
    exact ⟨AddNode_of_nonpos h name s hs, DelNode_of_nonpos h name s hs⟩
  · intro hs
    rw [AddNode_eq]
    simp only [List.length_append, replicas_length]
    push_cast
    omega
  · intro hb hs hlt
    have hpos : 0 < h.defaultSpots * s := Int.mul_pos_of_neg_of_neg hb hs
    rw [tSpots_eq_mul h s (by omega) hlt]
    exact hpos

/-! ## The position of a digest -/

theorem or_shift_eq_add (a b k : Nat) (ha : a < 2 ^ k) : a ||| b <<< k = b * 2 ^ k + a := by
  rw [Nat.shiftLeft_eq, Nat.mul_comm b, Nat.lor_comm]
  exact (Nat.mul_add_lt_is_or ha b).symm

theorem bytes_or_eq_add (b0 b1 b2 b3 : Nat) (h0 : b0 < 256) (h1 : b1 < 256) (h2 : b2 < 256) :
    b0 ||| b1 <<< 8 ||| b2 <<< 16 ||| b3 <<< 24 =
      b3 * 2 ^ 24 + b2 * 2 ^ 16 + b1 * 2 ^ 8 + b0 := by
  have e1 : b0 ||| b1 <<< 8 = b1 * 2 ^ 8 + b0 := or_shift_eq_add b0 b1 8 (by omega)
  have e2 : (b1 * 2 ^ 8 + b0) ||| b2 <<< 16 = b2 * 2 ^ 16 + (b1 * 2 ^ 8 + b0) :=
    or_shift_eq_add _ b2 16 (by omega)
  have e3 : (b2 * 2 ^ 16 + (b1 * 2 ^ 8 + b0)) ||| b3 <<< 24 =
      b3 * 2 ^ 24 + (b2 * 2 ^ 16 + (b1 * 2 ^ 8 + b0)) :=
    or_shift_eq_add _ b3 24 (by omega)
  rw [e1, e2, e3]
  omega

theorem sha1Sum_byte (msg : List Nat) : ∀ b ∈ sha1Sum msg, b < 256 := by
  intro b hb
  simp only [sha1Sum, be32, List.mem_append, List.mem_cons, List.mem_singleton,
    List.not_mem_nil, or_false] at hb
  omega

theorem sha1Sum_length (msg : List Nat) : (sha1Sum msg).length = 20 := by
  simp [sha1Sum, be32]

theorem getD_byte (d : List Nat) (hd : ∀ b ∈ d, b < 256) (i : Nat) : d.getD i 0 < 256 := by
  rw [List.getD_eq_getElem?_getD]
  cases hi : d[i]? with
  | none => simp
  | some b => exact hd b (List.getElem?_mem hi)

theorem position_eq_digestPosition (s : String) :
    position s = digestPosition (sha1Sum (bytesOf s)) := by
  have hd := getD_byte (sha1Sum (bytesOf s)) (sha1Sum_byte _)
  show (sha1Sum (bytesOf s)).getD 19 0 ||| (sha1Sum (bytesOf s)).getD 18 0 <<< 8 |||
    (sha1Sum (bytesOf s)).getD 17 0 <<< 16 ||| (sha1Sum (bytesOf s)).getD 16 0 <<< 24 = _
  rw [bytes_or_eq_add _ _ _ _ (hd 19) (hd 18) (hd 17)]
  rfl

/-- Claim C15. `AddNode` (the entry it appends for replica `i`), `DelNode` (the
value it searches for) and `Hash` (the value it searches for) all use the
position `d[16]*2^24 + d[17]*2^16 + d[18]*2^8 + d[19]` of the 20-byte SHA-1
digest `d` of their input string, and that value is below `2^32`. -/
theorem position_derivation (h : hashRing) (name : String) (i : Nat) (s : String)
    (msg : List Nat) :
    addStep name h i = { h with ticks := h.ticks ++
        [⟨name, digestPosition (sha1Sum (bytesOf (name ++ ":" ++ Itoa i)))⟩] } ∧
      delStep name h i =
        (Search h.length (fun x => (h.ticks[x]?).map (fun t =>
          decide (t.hash ≥ digestPosition (sha1Sum (bytesOf (name ++ ":" ++ Itoa i))))))).bind
          (fun j => if j + 1 ≤ h.ticks.length then
            some { h with ticks := h.ticks.take j ++ h.ticks.drop (j + 1),
                          length := (h.ticks.take j ++ h.ticks.drop (j + 1)).length }
            else none) ∧
      Hash h s =
        (Search h.length (fun x => (h.ticks[x]?).map (fun t =>
          decide (t.hash ≥ digestPosition (sha1Sum (bytesOf s)))))).bind
          (fun x => (h.ticks[if x = h.length then 0 else x]?).map (fun t => t.node)) ∧
      (sha1Sum msg).length = 20 ∧ (∀ b ∈ sha1Sum msg, b < 256) ∧
      digestPosition (sha1Sum msg) < 2 ^ 32 := by
  refine ⟨?_, ?_, ?_, sha1Sum_length msg, sha1Sum_byte msg, ?_⟩
  · rw [addStep_eq, position_eq_digestPosition]
  · rw [delStep_eq_position, position_eq_digestPosition]
  · rw [Hash_eq_position, position_eq_digestPosition]
  · have hd := getD_byte (sha1Sum msg) (sha1Sum_byte _)
    have h16 := hd 16
    have h17 := hd 17
    have h18 := hd 18
    have h19 := hd 19
    unfold digestPosition
    omega

/-! ## Adding a node and removing it again -/

theorem sorted_lt_of_nodup (l : tickArray) (hs : l.Sorted tickLE)
    (hd : (l.map (fun t => t.hash)).Nodup) :
    l.Pairwise (fun a b => a.hash < b.hash) := by
  have hne : l.Pairwise (fun a b => a.hash ≠ b.hash) := List.pairwise_map.mp hd
  have hboth := List.Pairwise.and (show l.Pairwise tickLE from hs) hne
  exact hboth.imp (fun hab => Nat.lt_of_le_of_ne hab.1 hab.2)

theorem eq_of_perm_of_sorted_nodup (l₁ l₂ : tickArray) (hp : l₁.Perm l₂)
    (h₁ : l₁.Pairwise (fun a b => a.hash < b.hash))
    (h₂ : l₂.Pairwise (fun a b => a.hash < b.hash)) : l₁ = l₂ := by
  haveI : IsAntisymm node (fun a b => a.hash < b.hash) :=
    ⟨fun a b hab hba => absurd hab (Nat.lt_asymm hba)⟩
  exact List.eq_of_perm_of_sorted hp h₁ h₂

/-- Claim C19. Round trip: let `R = Bake h` be a finalized ring whose
positions are pairwise distinct, and let the positions of the replicas of
`name` be distinct from each other and from those of `R`. Then `DelNode(name,
s)` applied to `Bake(AddNode(R, name, s))` completes and yields `R` again:
the same entry sequence, the same `length` and the same base count. -/
theorem AddNode_DelNode_round_trip (h : hashRing) (name : String) (s : Int)
    (hR : ((Bake h).ticks.map (fun t => t.hash)).Nodup)
    (hN : ((replicas name (tSpots (Bake h) s).toNat).map (fun t => t.hash)).Nodup)
    (hD : ∀ t ∈ (Bake h).ticks, ∀ u ∈ replicas name (tSpots (Bake h) s).toNat,
      t.hash ≠ u.hash) :
    ∃ r, DelNode (Bake (AddNode (Bake h) name s)) name s = some r ∧
      r.ticks = (Bake h).ticks ∧ r.length = (Bake h).length ∧ r = Bake h := by
  have hts : tSpots (AddNode (Bake h) name s) s = tSpots (Bake h) s := by
    rw [AddNode_eq]
    rfl
  have hperm : (Bake (AddNode (Bake h) name s)).ticks.Perm
      ((Bake h).ticks ++ replicas name (tSpots (Bake h) s).toNat) := by
    have e : (AddNode (Bake h) name s).ticks =
        (Bake h).ticks ++ replicas name (tSpots (Bake h) s).toNat := by rw [AddNode_eq]
    have := Bake_perm (AddNode (Bake h) name s)
    rw [e] at this
    exact this
  have hcont : (replicas name (tSpots (AddNode (Bake h) name s) s).toNat).Subperm
      (Bake (AddNode (Bake h) name s)).ticks := by
    rw [hts]
    exact (List.sublist_append_right _ _).subperm.trans hperm.symm.subperm
  obtain ⟨r, removed, h1, h2, h3, h4, _, h6, h7⟩ :=
    DelNode_Bake (AddNode (Bake h) name s) name s hcont
  rw [hts] at h2
  have hnd : ((Bake (AddNode (Bake h) name s)).ticks.map (fun t => t.hash)).Nodup := by
    rw [(hperm.map _).nodup_iff, List.map_append]
    refine List.Nodup.append hR hN ?_
    intro x hx1 hx2
    obtain ⟨t, ht, rfl⟩ := List.mem_map.mp hx1
    obtain ⟨u, hu, hut⟩ := List.mem_map.mp hx2
    exact hD t ht u hu hut.symm
  have hrem : removed = replicas name (tSpots (Bake h) s).toNat := by
    apply eq_of_map_hash_eq _ (nodup_hash_inj _ hnd) removed _ _ _ h2
    · intro t ht
      exact h3.mem_iff.mpr (List.mem_append_left _ ht)
    · intro t ht
      exact hperm.mem_iff.mpr (List.mem_append_right _ ht)
  have hp2 : r.ticks.Perm (Bake h).ticks := by
    have e1 : (replicas name (tSpots (Bake h) s).toNat ++ r.ticks).Perm
        (replicas name (tSpots (Bake h) s).toNat ++ (Bake h).ticks) := by
      rw [hrem] at h3
      exact h3.symm.trans (hperm.trans List.perm_append_comm)
    exact (List.perm_append_left_iff _).mp e1
  have hs2 := Bake_sorted (AddNode (Bake h) name s)
  have hticks : r.ticks = (Bake h).ticks := by
    apply eq_of_perm_of_sorted_nodup _ _ hp2
    · exact (sorted_lt_of_nodup _ hs2 hnd).sublist h4
    · exact sorted_lt_of_nodup _ (Bake_sorted h) hR
  have hlen : r.length = (Bake h).length := by
    rw [h6, hticks]
    rfl
  have hdef : r.defaultSpots = (Bake h).defaultSpots := by
    rw [h7, AddNode_eq]
  refine ⟨r, h1, hticks, hlen, ?_⟩
  cases r
  simp only at hticks hlen hdef
  subst hticks hlen hdef
  rfl

/-- Witness of `AddNode_DelNode_round_trip`: "B" with two replicas is added to
the finalized ring of "A" with two replicas and removed again. -/
theorem AddNode_DelNode_round_trip_witness :
    ∃ r, DelNode (Bake (AddNode (Bake (AddNode (NewRing 2) "A" 1)) "B" 1)) "B" 1 = some r ∧
      r.ticks = (Bake (AddNode (NewRing 2) "A" 1)).ticks ∧
      r.length = (Bake (AddNode (NewRing 2) "A" 1)).length ∧
      r = Bake (AddNode (NewRing 2) "A" 1) :=
  AddNode_DelNode_round_trip (AddNode (NewRing 2) "A" 1) "B" 1
    (by set_option maxRecDepth 100000 in decide)
    (by set_option maxRecDepth 100000 in decide)
    (by set_option maxRecDepth 100000 in decide)

/-! ## `Murmur3` and MurmurHash3 x86-32 -/

theorem or_mod_two_pow_32 (a b : Nat) (hb : b < 2 ^ 32) :
    a % 2 ^ 32 ||| b = (a ||| b) % 2 ^ 32 := by
  apply Nat.eq_of_testBit_eq
  intro i
  simp only [Nat.testBit_or, Nat.testBit_mod_two_pow]
  by_cases hi : i < 32
  · simp [hi]
  · have hlt : b < 2 ^ i := Nat.lt_of_lt_of_le hb (Nat.pow_le_pow_right (by omega) (by omega))
    simp [hi, Nat.testBit_lt_two_pow hlt]

/-- The rotation as `Murmur3` writes it, `(x << r) | (x >> (32 - r))` on a
`uint32`, is the rotation of a 32-bit word. -/
theorem rot_eq_rotl32 (x r : Nat) (hx : x < 2 ^ 32) :
    (x <<< r) % 2 ^ 32 ||| x >>> (32 - r) = rotl32 x r := by
  unfold rotl32
  apply or_mod_two_pow_32
  rw [Nat.shiftRight_eq_div_pow]
  exact Nat.lt_of_le_of_lt (Nat.div_le_self _ _) hx

theorem xor_shift_eq_add (a b k : Nat) (ha : a < 2 ^ k) : b <<< k ^^^ a = b * 2 ^ k + a := by
  rw [Nat.shiftLeft_eq, Nat.mul_comm b]
  apply Nat.eq_of_testBit_eq
  intro i
  rw [Nat.testBit_xor, Nat.testBit_mul_pow_two_add b ha, Nat.testBit_mul_pow_two]
  by_cases hi : i < k
  · have : ¬ i ≥ k := by omega
    simp [hi, this]
  · have hge : i ≥ k := by omega
    have hlt : a < 2 ^ i := Nat.lt_of_lt_of_le ha (Nat.pow_le_pow_right (by omega) hge)
    simp [hi, hge, Nat.testBit_lt_two_pow hlt]

/-- The additive assembly of the tail bytes in `Murmur3` equals the XOR
assembly of MurmurHash3. -/
theorem tail_add_eq_xor (b0 b1 b2 : Nat) (h0 : b0 < 256) (h1 : b1 < 256) (h2 : b2 < 256) :
    (((0 + b2 <<< 16) % 2 ^ 32 + b1 <<< 8) % 2 ^ 32 + b0) % 2 ^ 32 =
        ((0 ^^^ b2 <<< 16) ^^^ b1 <<< 8) ^^^ b0 ∧
      ((0 + b1 <<< 8) % 2 ^ 32 + b0) % 2 ^ 32 = (0 ^^^ b1 <<< 8) ^^^ b0 ∧
      (0 + b0) % 2 ^ 32 = b0 := by
  have e0 : b1 <<< 8 ^^^ b0 = b1 * 2 ^ 8 + b0 := xor_shift_eq_add b0 b1 8 (by omega)
  have e1 : (0 ^^^ b1 <<< 8) ^^^ b0 = b1 * 2 ^ 8 + b0 := by
    rw [Nat.zero_xor, e0]
  have e2 : ((0 ^^^ b2 <<< 16) ^^^ b1 <<< 8) ^^^ b0 = b2 * 2 ^ 16 + b1 * 2 ^ 8 + b0 := by
    rw [Nat.zero_xor, Nat.xor_assoc, e0, xor_shift_eq_add _ b2 16 (by omega)]
    omega
  rw [e1, e2]
  simp only [Nat.shiftLeft_eq]
  omega

theorem murmurMixK_lt (k : Nat) : murmurMixK k < 2 ^ 32 :=
  Nat.mod_lt _ (by norm_num)

/-- The mixing of a key word as `Murmur3` writes it. -/
theorem mix_eq_murmurMixK (k : Nat) :
    ((k * Murmur.c1 % 2 ^ 32) <<< Murmur.r1 % 2 ^ 32 |||
      (k * Murmur.c1 % 2 ^ 32) >>> (32 - Murmur.r1)) * Murmur.c2 % 2 ^ 32 = murmurMixK k := by
  rw [rot_eq_rotl32 _ _ (Nat.mod_lt _ (by norm_num))]
  rfl

theorem murmurBody_eq (h b0 b1 b2 b3 : Nat) (hh : h < 2 ^ 32)
    (h0 : b0 < 256) (h1 : b1 < 256) (h2 : b2 < 256) :
    murmurBody h b0 b1 b2 b3 =
      (rotl32 (h ^^^ murmurMixK (b0 + b1 * 2 ^ 8 + b2 * 2 ^ 16 + b3 * 2 ^ 24)) 13 * 5 +
        0xe6546b64) % 2 ^ 32 := by
  have e : b0 + b1 * 2 ^ 8 + b2 * 2 ^ 16 + b3 * 2 ^ 24 =
      b0 ||| b1 <<< 8 ||| b2 <<< 16 ||| b3 <<< 24 := by
    rw [bytes_or_eq_add b0 b1 b2 b3 h0 h1 h2]
    omega
  rw [e]
  simp only [murmurBody]
  rw [mix_eq_murmurMixK, rot_eq_rotl32 _ _ (Nat.xor_lt_two_pow hh (murmurMixK_lt _))]
  rfl

theorem murmurBody_lt (h b0 b1 b2 b3 : Nat) : murmurBody h b0 b1 b2 b3 < 2 ^ 32 :=
  Nat.mod_lt _ (by norm_num)

theorem murmurLoop_zero (key : List Nat) (i h : Nat) :
    murmurLoop key 0 i h = if i + 4 ≤ key.length then none else some (i, h) := rfl

theorem murmurLoop_succ (key : List Nat) (fuel i h : Nat) :
    murmurLoop key (fuel + 1) i h =
      if i + 4 ≤ key.length then
        match key[i]?, key[i + 1]?, key[i + 2]?, key[i + 3]? with
        | some b0, some b1, some b2, some b3 =>
          murmurLoop key fuel (i + 4) (murmurBody h b0 b1 b2 b3)
        | _, _, _, _ => none
      else some (i, h) := rfl

theorem murmurBlocks_zero (data : List Nat) (h : Nat) : murmurBlocks 0 data h = (h, data) := rfl

theorem murmurBlocks_succ (nblocks : Nat) (data : List Nat) (h : Nat) :
    murmurBlocks (nblocks + 1) data h =
      match data with
      | b0 :: b1 :: b2 :: b3 :: rest =>
        murmurBlocks nblocks rest
          ((rotl32 (h ^^^ murmurMixK (b0 + b1 * 2 ^ 8 + b2 * 2 ^ 16 + b3 * 2 ^ 24)) 13 * 5 +
            0xe6546b64) % 2 ^ 32)
      | tail => (h, tail) := rfl

theorem murmurBlocks_cons (nblocks b0 b1 b2 b3 : Nat) (rest : List Nat) (h : Nat) :
    murmurBlocks (nblocks + 1) (b0 :: b1 :: b2 :: b3 :: rest) h =
      murmurBlocks nblocks rest
        ((rotl32 (h ^^^ murmurMixK (b0 + b1 * 2 ^ 8 + b2 * 2 ^ 16 + b3 * 2 ^ 24)) 13 * 5 +
          0xe6546b64) % 2 ^ 32) := by
  rw [murmurBlocks_succ]

theorem drop_four (key : List Nat) (i : Nat) (hi : i + 4 ≤ key.length) :
    key.drop i = key[i] :: key[i + 1] :: key[i + 2] :: key[i + 3] :: key.drop (i + 4) := by
  rw [List.drop_eq_getElem_cons (by omega : i < key.length),
    List.drop_eq_getElem_cons (by omega : i + 1 < key.length),
    List.drop_eq_getElem_cons (by omega : i + 1 + 1 < key.length),
    List.drop_eq_getElem_cons (by omega : i + 1 + 1 + 1 < key.length)]

/-- The loop of `Murmur3` finishes within `fuel` rounds, reads no index out of
range, and computes the block part of MurmurHash3; it exits at an index that
leaves fewer than four bytes. -/
theorem murmurLoop_eq (key : List Nat) (hkey : ∀ b ∈ key, b < 256) :
    ∀ fuel i h, h < 2 ^ 32 → i ≤ key.length → key.length - i < 4 * (fuel + 1) →
      ∃ i', murmurLoop key fuel i h =
          some (i', (murmurBlocks ((key.length - i) / 4) (key.drop i) h).1) ∧
        i' ≤ key.length ∧ key.length - i' < 4 ∧
        (murmurBlocks ((key.length - i) / 4) (key.drop i) h).2 = key.drop i' ∧
        (murmurBlocks ((key.length - i) / 4) (key.drop i) h).1 < 2 ^ 32 := by
  have hexit : ∀ i h, h < 2 ^ 32 → i ≤ key.length → ¬ i + 4 ≤ key.length →
      (murmurBlocks ((key.length - i) / 4) (key.drop i) h) = (h, key.drop i) := by
    intro i h _ _ hc
    have e : (key.length - i) / 4 = 0 := by omega
    rw [e, murmurBlocks_zero]
  intro fuel
  induction fuel with
  | zero =>
    intro i h hh hi hf
    have hc : ¬ i + 4 ≤ key.length := by omega
    rw [hexit i h hh hi hc, murmurLoop_zero, if_neg hc]
    exact ⟨i, rfl, hi, by omega, rfl, hh⟩
  | succ m ih =>
    intro i h hh hi hf
    by_cases hc : i + 4 ≤ key.length
    · have h0 : i < key.length := by omega
      have h1 : i + 1 < key.length := by omega
      have h2 : i + 2 < key.length := by omega
      have h3 : i + 3 < key.length := by omega
      obtain ⟨i', e1, e2, e3, e4, e5⟩ :=
        ih (i + 4) (murmurBody h key[i] key[i + 1] key[i + 2] key[i + 3])
          (murmurBody_lt _ _ _ _ _) hc (by omega)
      have en : (key.length - i) / 4 = (key.length - (i + 4)) / 4 + 1 := by omega
      have hb : murmurBlocks ((key.length - i) / 4) (key.drop i) h =
          murmurBlocks ((key.length - (i + 4)) / 4) (key.drop (i + 4))
            (murmurBody h key[i] key[i + 1] key[i + 2] key[i + 3]) := by
        rw [en, drop_four key i hc, murmurBlocks_cons,
          murmurBody_eq h _ _ _ _ hh (hkey _ (List.getElem_mem _))
            (hkey _ (List.getElem_mem _)) (hkey _ (List.getElem_mem _))]
      refine ⟨i', ?_, e2, e3, ?_, ?_⟩
      · rw [murmurLoop_succ, if_pos hc, List.getElem?_eq_getElem h0,
          List.getElem?_eq_getElem h1, List.getElem?_eq_getElem h2,
          List.getElem?_eq_getElem h3, hb]
        exact e1
      · rw [hb, e4]
      · rw [hb]
        exact e5
    · rw [hexit i h hh hi hc, murmurLoop_succ, if_neg hc]
      exact ⟨i, rfl, hi, by omega, rfl, hh⟩

theorem murmurCase1_eq (key : List Nat) (i hash r b0 : Nat) (h0 : key[i]? = some b0) :
    murmurCase1 key i hash r = some (hash ^^^ murmurMixK ((r + b0) % 2 ^ 32)) := by
  simp only [murmurCase1, h0, Option.map_some']
  rw [mix_eq_murmurMixK]

theorem murmurCase2_eq (key : List Nat) (i hash r b0 b1 : Nat) (h0 : key[i]? = some b0)
    (h1 : key[i + 1]? = some b1) :
    murmurCase2 key i hash r =
      some (hash ^^^ murmurMixK (((r + b1 <<< 8) % 2 ^ 32 + b0) % 2 ^ 32)) := by
  simp only [murmurCase2, h1, Option.some_bind]
  rw [murmurCase1_eq key i hash _ b0 h0]

theorem murmurCase3_eq (key : List Nat) (i hash r b0 b1 b2 : Nat) (h0 : key[i]? = some b0)
    (h1 : key[i + 1]? = some b1) (h2 : key[i + 2]? = some b2) :
    murmurCase3 key i hash r =
      some (hash ^^^ murmurMixK ((((r + b2 <<< 16) % 2 ^ 32 + b1 <<< 8) % 2 ^ 32 + b0) %
        2 ^ 32)) := by
  simp only [murmurCase3, h2, Option.some_bind]
  rw [murmurCase2_eq key i hash _ b0 b1 h0 h1]

theorem murmurTail_nil (h : Nat) : murmurTail [] h = h := rfl

theorem murmurTail_one (b0 h : Nat) : murmurTail [b0] h = h ^^^ murmurMixK b0 := rfl

theorem murmurTail_two (b0 b1 h : Nat) :
    murmurTail [b0, b1] h = h ^^^ murmurMixK ((0 ^^^ b1 <<< 8) ^^^ b0) := rfl

theorem murmurTail_three (b0 b1 b2 h : Nat) :
    murmurTail [b0, b1, b2] h =
      h ^^^ murmurMixK (((0 ^^^ b2 <<< 16) ^^^ b1 <<< 8) ^^^ b0) := rfl

theorem Murmur3_eq_bind (seed : Nat) (key : List Nat) :
    Murmur3 seed key =
      (murmurLoop key key.length 0 seed).bind fun st =>
        (if key.length - st.1 = 3 then murmurCase3 key st.1 st.2 0
          else if key.length - st.1 = 2 then murmurCase2 key st.1 st.2 0
          else if key.length - st.1 = 1 then murmurCase1 key st.1 st.2 0
          else some st.2).map
          fun hash => fmix32 (hash ^^^ (key.length % 2 ^ 32)) := rfl

theorem fmix32_lt (h : Nat) : fmix32 h < 2 ^ 32 := by
  have h1 : (h ^^^ h >>> 16) * 0x85ebca6b % 2 ^ 32 < 2 ^ 32 := Nat.mod_lt _ (by norm_num)
  have h2 : (((h ^^^ h >>> 16) * 0x85ebca6b % 2 ^ 32) ^^^
      ((h ^^^ h >>> 16) * 0x85ebca6b % 2 ^ 32) >>> 13) * 0xc2b2ae35 % 2 ^ 32 < 2 ^ 32 :=
    Nat.mod_lt _ (by norm_num)
  simp only [fmix32]
  apply Nat.xor_lt_two_pow h2
  rw [Nat.shiftRight_eq_div_pow]
  exact Nat.lt_of_le_of_lt (Nat.div_le_self _ _) h2

/-- Claim C16. For every byte sequence `key` and every 32-bit `seed`,
`Murmur3` run while `Seed` holds `seed` reads no index out of range and
returns exactly the canonical MurmurHash3 x86-32 value, a number below
`2^32`; in particular the additive assembly of the tail bytes in the code
equals the XOR assembly of the reference. -/
theorem Murmur3_eq_reference (seed : Nat) (key : List Nat) (hseed : seed < 2 ^ 32)
    (hkey : ∀ b ∈ key, b < 256) :
    Murmur3 seed key = some (murmur3Reference seed key) ∧
      murmur3Reference seed key < 2 ^ 32 ∧
      (∀ b0 b1 b2, b0 < 256 → b1 < 256 → b2 < 256 →
        (((0 + b2 <<< 16) % 2 ^ 32 + b1 <<< 8) % 2 ^ 32 + b0) % 2 ^ 32 =
          ((0 ^^^ b2 <<< 16) ^^^ b1 <<< 8) ^^^ b0) := by
  refine ⟨?_, fmix32_lt _, fun b0 b1 b2 h0 h1 h2 => (tail_add_eq_xor b0 b1 b2 h0 h1 h2).1⟩
  obtain ⟨i, hloop, hi, hlt, htail, _⟩ :=
    murmurLoop_eq key hkey key.length 0 seed hseed (Nat.zero_le _) (by omega)
  rw [Nat.sub_zero, List.drop_zero] at hloop htail
  rw [Murmur3_eq_bind, hloop, Option.some_bind]
  unfold murmur3Reference
  rw [htail]
  generalize (murmurBlocks (key.length / 4) key seed).1 = hash
  show (if key.length - i = 3 then murmurCase3 key i hash 0
      else if key.length - i = 2 then murmurCase2 key i hash 0
      else if key.length - i = 1 then murmurCase1 key i hash 0
      else some hash).map (fun hash => fmix32 (hash ^^^ (key.length % 2 ^ 32))) = _
  have hget : ∀ k, key[i + k]? = (key.drop i)[k]? := fun k => (List.getElem?_drop key i k).symm
  have hlen : (key.drop i).length = key.length - i := List.length_drop i key
  have hkt : ∀ b ∈ key.drop i, b < 256 := fun b hb => hkey b (List.mem_of_mem_drop hb)
  generalize key.drop i = tail at hget hlen hkt ⊢
  match tail, hget, hlen, hkt with
  | [], _, hlen, _ =>
    have c3 : ¬ key.length - i = 3 := by simp at hlen; omega
    have c2 : ¬ key.length - i = 2 := by simp at hlen; omega
    have c1 : ¬ key.length - i = 1 := by simp at hlen; omega
    rw [if_neg c3, if_neg c2, if_neg c1, murmurTail_nil, Option.map_some']
  | [b0], hget, hlen, hkt =>
    have c3 : ¬ key.length - i = 3 := by simp at hlen; omega
    have c2 : ¬ key.length - i = 2 := by simp at hlen; omega
    have c1 : key.length - i = 1 := by simp at hlen; omega
    have hb := tail_add_eq_xor b0 0 0 (hkt b0 (by simp)) (by omega) (by omega)
    rw [if_neg c3, if_neg c2, if_pos c1, murmurCase1_eq key i hash 0 b0 (hget 0),
      murmurTail_one, hb.2.2, Option.map_some']
  | [b0, b1], hget, hlen, hkt =>
    have c3 : ¬ key.length - i = 3 := by simp at hlen; omega
    have c2 : key.length - i = 2 := by simp at hlen; omega
    have hb := tail_add_eq_xor b0 b1 0 (hkt b0 (by simp)) (hkt b1 (by simp)) (by omega)
    rw [if_neg c3, if_pos c2, murmurCase2_eq key i hash 0 b0 b1 (hget 0) (hget 1),
      murmurTail_two, hb.2.1, Option.map_some']
  | [b0, b1, b2], hget, hlen, hkt =>
    have c3 : key.length - i = 3 := by simp at hlen; omega
    have hb := tail_add_eq_xor b0 b1 b2 (hkt b0 (by simp)) (hkt b1 (by simp))
      (hkt b2 (by simp))
    rw [if_pos c3, murmurCase3_eq key i hash 0 b0 b1 b2 (hget 0) (hget 1) (hget 2),
      murmurTail_three, hb.1, Option.map_some']
  | _ :: _ :: _ :: _ :: _, _, hlen, _ =>
    simp only [List.length_cons] at hlen
    omega

/-- Witness of `Murmur3_eq_reference`: the three bytes of "abc" with seed 0. -/
theorem Murmur3_eq_reference_witness :
    Murmur3 0 [97, 98, 99] = some (murmur3Reference 0 [97, 98, 99]) ∧
      murmur3Reference 0 [97, 98, 99] < 2 ^ 32 ∧
      (∀ b0 b1 b2, b0 < 256 → b1 < 256 → b2 < 256 →
        (((0 + b2 <<< 16) % 2 ^ 32 + b1 <<< 8) % 2 ^ 32 + b0) % 2 ^ 32 =
          ((0 ^^^ b2 <<< 16) ^^^ b1 <<< 8) ^^^ b0) :=
  Murmur3_eq_reference 0 [97, 98, 99] (by decide) (by decide)

/-- Claim C17. `Murmur3` matches the published MurmurHash3 x86-32 vectors for
the empty input: with `Seed = 0` the hash of the empty byte sequence is 0, and
with `Seed = 1`, the value the package gives `Seed`, it is `0x514E28B7`. -/
theorem Murmur3_empty_vectors :
    Murmur3 0 [] = some 0 ∧ Murmur.Seed = 1 ∧ Murmur3 Murmur.Seed [] = some 0x514E28B7 := by
  decide

end Ketama
